import Mathlib

/-!
# Verification of the AIRE protocol-inference core

A shallow embedding of the AIRE core (corpus model, hypothesis taxonomy,
the six built-in parsers and generators, the MDL scorer, and the recursive
inference engine), translated from `src/core/src`, together with theorems
settling the specification claims.

Floating-point values (`f64`) are modelled by `FV`: exact rationals
extended with the two infinities and a NaN element, with IEEE-754
behaviour for addition, subtraction and comparison on those categories.
The two external numeric routines the core calls — Shannon byte-entropy
and the deflate compressed size (from the `flate2` crate, outside this
repository) — are abstracted as oracle parameters (`Oracles`): an
entropy function and a (possibly failing) compressed-size function,
exactly as the code consumes them.
-/

namespace AIRE

/-- Abstraction of `f64`: finite values are exact rationals; `pinf`,
`ninf`, `nan` model `+∞`, `-∞` and NaN. -/
inductive FV where
  | fin (q : ℚ)
  | pinf
  | ninf
  | nan
deriving DecidableEq

/-- IEEE-754 addition on the `FV` categories. -/
def FV.add : FV → FV → FV
  | .nan, _ => .nan
  | _, .nan => .nan
  | .fin a, .fin b => .fin (a + b)
  | .fin _, .pinf => .pinf
  | .fin _, .ninf => .ninf
  | .pinf, .fin _ => .pinf
  | .ninf, .fin _ => .ninf
  | .pinf, .pinf => .pinf
  | .ninf, .ninf => .ninf
  | .pinf, .ninf => .nan
  | .ninf, .pinf => .nan

/-- IEEE-754 negation. -/
def FV.neg : FV → FV
  | .fin a => .fin (-a)
  | .pinf => .ninf
  | .ninf => .pinf
  | .nan => .nan

/-- IEEE-754 subtraction. -/
def FV.sub (a b : FV) : FV := a.add b.neg

/-- IEEE-754 `<`: false whenever either operand is NaN. -/
def FV.lt : FV → FV → Bool
  | .fin a, .fin b => decide (a < b)
  | .fin _, .pinf => true
  | .ninf, .fin _ => true
  | .ninf, .pinf => true
  | _, _ => false

/-- IEEE-754 `≤`: false whenever either operand is NaN. -/
def FV.le : FV → FV → Bool
  | .fin a, .fin b => decide (a ≤ b)
  | .fin _, .pinf => true
  | .ninf, .fin _ => true
  | .ninf, .pinf => true
  | .pinf, .pinf => true
  | .ninf, .ninf => true
  | _, _ => false

/-- Rust `partial_cmp(..).unwrap_or(Ordering::Equal)` as used to sort scores:
NaN compares as `Equal` to everything. -/
def FV.pcmp : FV → FV → Ordering
  | .nan, _ => .eq
  | _, .nan => .eq
  | .fin a, .fin b => compare a b
  | .fin _, .pinf => .lt
  | .fin _, .ninf => .gt
  | .pinf, .fin _ => .gt
  | .ninf, .fin _ => .lt
  | .pinf, .pinf => .eq
  | .ninf, .ninf => .eq
  | .pinf, .ninf => .gt
  | .ninf, .pinf => .lt

/-- A shared reference-counted byte buffer (`Arc<[u8]>`). The `id`
models the identity of the `Arc` handle: two `PduRef`s alias the same
allocation exactly when their buffers have the same `id`. -/
structure Buf where
  id : Nat
  bytes : List Nat
deriving DecidableEq

/-- Rust `corpus.rs`: `PduRef { data: Arc<[u8]>, range: Range<usize> }`.
`first`/`last` are the Rust range's `start`/`end` fields. -/
structure PduRef where
  buf : Buf
  first : Nat
  last : Nat
deriving DecidableEq

/-- Rust `PduRef::len`. -/
def PduRef.len (p : PduRef) : Nat := p.last - p.first

/-- Rust `PduRef::as_slice`: `&data[range]`. Modelled totally with
`drop`/`take`; the code only builds in-bounds ranges. -/
def PduRef.as_slice (p : PduRef) : List Nat :=
  (p.buf.bytes.drop p.first).take (p.last - p.first)

/-- Rust `corpus.rs`: `CorpusMeta`. -/
structure CorpusMeta where
  source : String
  total_bytes : Nat
  pdu_count : Nat
  flow_id : Option Nat
deriving DecidableEq

/-- Rust `corpus.rs`: `Corpus`. -/
structure Corpus where
  items : List PduRef
  meta : CorpusMeta
deriving DecidableEq

/-- Rust `Corpus::total_bytes` (reads the metadata field). -/
def Corpus.total_bytes (c : Corpus) : Nat := c.meta.total_bytes

/-- Rust `hypothesis.rs`: `LengthWidth`. -/
inductive LengthWidth where
  | one
  | two
  | four
deriving DecidableEq

/-- The numeric value of a `LengthWidth` (`*width as usize`). -/
def LengthWidth.val : LengthWidth → Nat
  | .one => 1
  | .two => 2
  | .four => 4

/-- Rust `hypothesis.rs`: `Endianness`. -/
inductive Endianness where
  | little
  | big
deriving DecidableEq

/-- Rust `hypothesis.rs`: `TlvLenRule`. -/
inductive TlvLenRule where
  | definiteShort
  | definiteMedium
  | definiteLong
  | indefiniteWithEoc
deriving DecidableEq

/-- Rust `hypothesis.rs`: `Hypothesis`. -/
inductive Hypothesis where
  | lengthPrefixBundle (offset : Nat) (width : LengthWidth) (endian : Endianness)
      (includes_header : Bool)
  | delimiterBundle (pattern : List Nat)
  | fixedHeader (len : Nat)
  | extensibleBitmap (start : Nat) (cont_bit : Nat) (stop_value : Nat) (max_bytes : Nat)
  | tlv (tag_offset : Nat) (tag_bytes : Nat) (len_offset : Nat) (len_rule : TlvLenRule)
      (length_includes_header : Bool)
  | varintKeyWireType (key_max_bytes : Nat) (allow_embedded : Bool)
deriving DecidableEq

/-- Rust `segment.rs`: `SegmentKind`. -/
inductive SegmentKind where
  | pci
  | sdu
  | messageBoundary
  | field (name : String)
  | error (msg : String)
deriving DecidableEq

/-- Rust `segment.rs`: `Segment` with its `range` split into the two bounds.
`Segment::new` leaves `note = None`; nothing in the parsers sets it. -/
structure Segment where
  kind : SegmentKind
  first : Nat
  last : Nat
  note : Option String := none
deriving DecidableEq

/-- Rust `Segment::len`. -/
def Segment.len (s : Segment) : Nat := s.last - s.first

/-- Rust `Segment::new`. -/
def Segment.mk' (k : SegmentKind) (a b : Nat) : Segment := ⟨k, a, b, none⟩

/-- Rust `parser.rs`: `ParsedPdu`. -/
structure ParsedPdu where
  segments : List Segment
  exceptions : List String
deriving DecidableEq

/-- Rust `SegmentKind` is the `Error` variant. -/
def SegmentKind.isError : SegmentKind → Bool
  | .error _ => true
  | _ => false

/-- Rust `ParsedPdu::is_success`: no segment has kind `Error`. -/
def ParsedPdu.is_success (p : ParsedPdu) : Bool :=
  !(p.segments.any (fun s => s.kind.isError))

/-- Rust `parser.rs`: `ParsedCorpus`. -/
structure ParsedCorpus where
  parsed_pdus : List ParsedPdu
  diagnostics : List String
deriving DecidableEq

/-- Rust `ParsedCorpus::new`. -/
def ParsedCorpus.mk' (ps : List ParsedPdu) : ParsedCorpus := ⟨ps, []⟩

/-- Rust `ParsedCorpus::parse_success_ratio`: `|successful| / |total|`, `0`
if empty (an exact rational; the code computes the same ratio in `f64`). -/
def ParsedCorpus.parse_success_ratio (pc : ParsedCorpus) : ℚ :=
  if pc.parsed_pdus.isEmpty then 0
  else ((pc.parsed_pdus.filter (fun p => p.is_success)).length : ℚ) /
    (pc.parsed_pdus.length : ℚ)

/-- Rust `score.rs`: `ScoreBreakdown`. The bit fields can be `+∞`, so they
live in `FV`; `parse_success_ratio` is always a finite ratio. -/
structure ScoreBreakdown where
  mdl_model_bits : FV
  mdl_data_bits : FV
  parse_success_ratio : ℚ
  alignment_gain_bits : FV
  entropy_drop_bits : FV
  penalties_bits : FV
deriving DecidableEq

/-- Rust `ScoreBreakdown::total_bits`: `model + data - alignment_gain -
entropy_drop + penalties`, with the Rust left-to-right association. -/
def ScoreBreakdown.total_bits (b : ScoreBreakdown) : FV :=
  ((((b.mdl_model_bits.add b.mdl_data_bits).sub b.alignment_gain_bits).sub
      b.entropy_drop_bits).add b.penalties_bits)

/-- Rust `score.rs`: `Score`. -/
structure Score where
  breakdown : ScoreBreakdown
  total_bits : FV
deriving DecidableEq

/-- Rust `Score::new`. -/
def Score.new (b : ScoreBreakdown) : Score := ⟨b, b.total_bits⟩

end AIRE

namespace AIRE

/-! ## Shared parser machinery

Each bundling parser in `plugins/parsers.rs` is a `while pos < data.len()`
loop whose body either breaks (finishing the current `ParsedPdu`) or
continues at a strictly larger position.  We factor one loop iteration
into a step function returning `StepRes`, and run it through the fuel-
indexed combinator `runLoop`; the parsers invoke it with fuel
`data.length + 1`, and the fuel-irrelevance theorems below show any
sufficient fuel yields the same result (the loop terminates). -/

/-- Rust `data[i]` (all accesses in the code are bounds-checked before use). -/
def byteAt (data : List Nat) (i : Nat) : Nat := data.getD i 0

/-- Result of one iteration of a parsing loop: `done` models `break`
(and the subsequent fall-through out of the loop), `cont` models
reaching the end of the body with an updated position and accumulators. -/
inductive StepRes where
  | done (p : ParsedPdu)
  | cont (pos : Nat) (segs : List Segment) (excs : List String)

/-- Rust `while pos < len { body }` with an explicit fuel.  Exhausted fuel
returns the accumulated state, which coincides with the loop exit when
the fuel dominates `len - pos` (see the fuel-irrelevance lemmas). -/
def runLoop (len : Nat) (step : Nat → List Segment → List String → StepRes) :
    Nat → Nat → List Segment → List String → ParsedPdu
  | 0, _, segs, excs => ⟨segs, excs⟩
  | fuel + 1, pos, segs, excs =>
    if pos < len then
      match step pos segs excs with
      | .done p => p
      | .cont pos' segs' excs' => runLoop len step fuel pos' segs' excs'
    else ⟨segs, excs⟩

/-- Invariant preservation through `runLoop`. -/
theorem runLoop_inv (len : Nat) (step : Nat → List Segment → List String → StepRes)
    (P : List Segment → List String → Prop)
    (hdone : ∀ pos segs excs p, pos < len → P segs excs →
      step pos segs excs = .done p → P p.segments p.exceptions)
    (hcont : ∀ pos segs excs pos' segs' excs', pos < len → P segs excs →
      step pos segs excs = .cont pos' segs' excs' → P segs' excs') :
    ∀ fuel pos segs excs, P segs excs →
      P (runLoop len step fuel pos segs excs).segments
        (runLoop len step fuel pos segs excs).exceptions := by
  intro fuel
  induction fuel with
  | zero => intro pos segs excs h; exact h
  | succ n ih =>
    intro pos segs excs h
    by_cases hp : pos < len
    · rcases hs : step pos segs excs with p | ⟨pos', segs', excs'⟩
      · simpa [runLoop, hp, hs] using hdone pos segs excs p hp h hs
      · simpa [runLoop, hp, hs] using ih pos' segs' excs' (hcont _ _ _ _ _ _ hp h hs)
    · simpa [runLoop, hp] using h

/-- Fuel irrelevance: if every continuing step strictly increases the
position, any two fuels dominating `len - pos` produce the same result —
the while loop terminates after at most `len - pos` iterations. -/
theorem runLoop_fuel (len : Nat) (step : Nat → List Segment → List String → StepRes)
    (hstep : ∀ pos segs excs pos' segs' excs', pos < len →
      step pos segs excs = .cont pos' segs' excs' → pos < pos') :
    ∀ f₁ f₂ pos segs excs, len - pos < f₁ → len - pos < f₂ →
      runLoop len step f₁ pos segs excs = runLoop len step f₂ pos segs excs := by
  intro f₁
  induction f₁ with
  | zero => intro f₂ pos segs excs h₁; omega
  | succ n ih =>
    intro f₂ pos segs excs h₁ h₂
    match f₂ with
    | 0 => omega
    | m + 1 =>
      by_cases hp : pos < len
      · rcases hs : step pos segs excs with p | ⟨pos', segs', excs'⟩
        · simp [runLoop, hp, hs]
        · have hlt := hstep pos segs excs pos' segs' excs' hp hs
          simp only [runLoop, hp, if_true, hs]
          exact ih m pos' segs' excs' (by omega) (by omega)
      · simp [runLoop, hp]

/-! ## LengthPrefix parser (`plugins/parsers.rs`, `LengthPrefixParser`) -/

/-- Read the length field at `len_pos`: `u8` / `u16` / `u32`, little or
big endian (`from_le_bytes` / `from_be_bytes`). -/
def readLenAt (data : List Nat) (len_pos : Nat) : LengthWidth → Endianness → Nat
  | .one, _ => byteAt data len_pos
  | .two, .little => byteAt data len_pos + 256 * byteAt data (len_pos + 1)
  | .two, .big => 256 * byteAt data len_pos + byteAt data (len_pos + 1)
  | .four, .little =>
    byteAt data len_pos + 256 * byteAt data (len_pos + 1) +
      65536 * byteAt data (len_pos + 2) + 16777216 * byteAt data (len_pos + 3)
  | .four, .big =>
    16777216 * byteAt data len_pos + 65536 * byteAt data (len_pos + 1) +
      256 * byteAt data (len_pos + 2) + byteAt data (len_pos + 3)

/-- One iteration of the `LengthPrefixParser` loop. -/
def lpStep (offset : Nat) (width : LengthWidth) (endian : Endianness) (data : List Nat)
    (pos : Nat) (segs : List Segment) (excs : List String) : StepRes :=
  let len_pos := pos + offset
  if len_pos + width.val > data.length then
    .done ⟨segs ++ [Segment.mk' (.error "Incomplete length field") pos data.length], excs⟩
  else
    let len := readLenAt data len_pos width endian
    let header_end := len_pos + width.val
    let message_end := header_end + len
    if message_end > data.length then
      .done ⟨segs ++ [Segment.mk' (.error "Message overflow") pos data.length],
        excs ++ [s!"Message extends beyond PDU at pos {pos}"]⟩
    else
      let segs := if pos < header_end then
        segs ++ [Segment.mk' (.field "length") pos header_end] else segs
      let segs := if header_end < message_end then
        segs ++ [Segment.mk' .sdu header_end message_end] else segs
      let segs := if message_end < data.length then
        segs ++ [Segment.mk' .messageBoundary message_end message_end] else segs
      .cont message_end segs excs

/-- Rust `LengthPrefixParser` on a single PDU's bytes. -/
def lpParsePdu (offset : Nat) (width : LengthWidth) (endian : Endianness)
    (data : List Nat) : ParsedPdu :=
  runLoop data.length (lpStep offset width endian data) (data.length + 1) 0 [] []

/-- Rust `LengthPrefixParser::applicable`. -/
def lpApplicable : Hypothesis → Bool
  | .lengthPrefixBundle .. => true
  | _ => false

/-- Rust `LengthPrefixParser::parse_corpus`. -/
def lpParseCorpus (corpus : Corpus) : Hypothesis → ParsedCorpus
  | .lengthPrefixBundle offset width endian _ =>
    ParsedCorpus.mk' (corpus.items.map (fun p => lpParsePdu offset width endian p.as_slice))
  | _ => ParsedCorpus.mk' []

end AIRE

namespace AIRE

/-! ## Delimiter parser (`plugins/parsers.rs`, `DelimiterParser`) -/

/-- Linear scan for the first index `i ∈ [i, i+rem)` where `pattern` is a
prefix of `data[i..]`. -/
def findPatAux (data pattern : List Nat) : Nat → Nat → Option Nat
  | 0, _ => none
  | rem + 1, i =>
    if pattern.isPrefixOf (data.drop i) then some i
    else findPatAux data pattern rem (i + 1)

/-- The pattern search `for i in pos..data.len().saturating_sub(pattern.len()-1)`.
For an empty pattern the Rust subtraction wraps (release build) and the
saturating subtraction yields an empty range; the search finds nothing. -/
def findPat (data pattern : List Nat) (start : Nat) : Option Nat :=
  let upper := if pattern.length = 0 then 0 else data.length + 1 - pattern.length
  findPatAux data pattern (upper - start) start

/-- One iteration of the `DelimiterParser` loop. -/
def delimStep (pattern : List Nat) (data : List Nat) (pos : Nat) (segs : List Segment)
    (excs : List String) : StepRes :=
  let found := findPat data pattern pos
  let next_boundary := found.getD data.length
  let segs := if pos < next_boundary then
    segs ++ [Segment.mk' .sdu pos next_boundary] else segs
  match found with
  | some i =>
    .cont (i + pattern.length)
      (segs ++ [Segment.mk' .messageBoundary i (i + pattern.length)]) excs
  | none => .cont data.length segs excs

/-- Rust `DelimiterParser` on a single PDU's bytes. -/
def delimParsePdu (pattern : List Nat) (data : List Nat) : ParsedPdu :=
  runLoop data.length (delimStep pattern data) (data.length + 1) 0 [] []

/-- Rust `DelimiterParser::applicable`. -/
def delimApplicable : Hypothesis → Bool
  | .delimiterBundle _ => true
  | _ => false

/-- Rust `DelimiterParser::parse_corpus`. -/
def delimParseCorpus (corpus : Corpus) : Hypothesis → ParsedCorpus
  | .delimiterBundle pattern =>
    ParsedCorpus.mk' (corpus.items.map (fun p => delimParsePdu pattern p.as_slice))
  | _ => ParsedCorpus.mk' []

/-! ## FixedHeader parser (`plugins/parsers.rs`, `FixedHeaderParser`) -/

/-- Rust `FixedHeaderParser` on a single PDU's bytes (no loop). -/
def fhParsePdu (len : Nat) (data : List Nat) : ParsedPdu :=
  if data.length < len then
    ⟨[Segment.mk' (.error "PDU too short") 0 data.length], []⟩
  else
    let segs := [Segment.mk' .pci 0 len]
    let segs := if len < data.length then
      segs ++ [Segment.mk' .sdu len data.length] else segs
    ⟨segs, []⟩

/-- Rust `FixedHeaderParser::applicable`. -/
def fhApplicable : Hypothesis → Bool
  | .fixedHeader _ => true
  | _ => false

/-- Rust `FixedHeaderParser::parse_corpus`. -/
def fhParseCorpus (corpus : Corpus) : Hypothesis → ParsedCorpus
  | .fixedHeader len =>
    ParsedCorpus.mk' (corpus.items.map (fun p => fhParsePdu len p.as_slice))
  | _ => ParsedCorpus.mk' []

/-! ## ExtensibleBitmap parser (`plugins/parsers.rs`, `ExtensibleBitmapParser`) -/

/-- Bitmap scan: starting at `bpos` with `blen` bytes consumed, read
while the continuation bit differs from `stop_value`, the position is in
range and fewer than `max_bytes` bytes were consumed (`rem` counts the
remaining byte budget); returns the final bitmap length.  The Rust
`byte >> cont_bit` on `u8` would panic for `cont_bit ≥ 8` (the built-in
generator only emits `0..8`); the `Nat` shift is total. -/
def bitmapScan (data : List Nat) (contBit stopVal : Nat) : Nat → Nat → Nat → Nat
  | 0, _, blen => blen
  | rem + 1, bpos, blen =>
    if bpos < data.length then
      let byte := byteAt data bpos
      let cv := (byte >>> contBit) % 2
      let blen' := blen + 1
      if cv = stopVal then blen'
      else bitmapScan data contBit stopVal rem (bpos + 1) blen'
    else blen

/-- Rust `ExtensibleBitmapParser` on a single PDU's bytes. -/
def ebParsePdu (start contBit stopVal maxBytes : Nat) (data : List Nat) : ParsedPdu :=
  if data.length < start then
    ⟨[Segment.mk' (.error "PDU too short for bitmap start") 0 data.length], []⟩
  else
    let bitmap_len := bitmapScan data contBit stopVal maxBytes start 0
    let bitmap_end := start + bitmap_len
    if bitmap_end > data.length then
      ⟨[Segment.mk' (.error "Bitmap overflow") 0 data.length], ["Bitmap extends beyond PDU"]⟩
    else
      let segs := if start > 0 then [Segment.mk' .pci 0 start] else []
      let segs := segs ++ [Segment.mk' (.field "bitmap") start bitmap_end]
      let segs := if bitmap_end < data.length then
        segs ++ [Segment.mk' .sdu bitmap_end data.length] else segs
      ⟨segs, []⟩

/-- Rust `ExtensibleBitmapParser::applicable`. -/
def ebApplicable : Hypothesis → Bool
  | .extensibleBitmap .. => true
  | _ => false

/-- Rust `ExtensibleBitmapParser::parse_corpus`. -/
def ebParseCorpus (corpus : Corpus) : Hypothesis → ParsedCorpus
  | .extensibleBitmap start contBit stopVal maxBytes =>
    ParsedCorpus.mk' (corpus.items.map (fun p => ebParsePdu start contBit stopVal maxBytes p.as_slice))
  | _ => ParsedCorpus.mk' []

end AIRE

namespace AIRE

/-! ## TLV parser (`plugins/parsers.rs`, `TlvParser`) -/

/-- EOC search: `while search_pos + 1 < data.len()`, looking for the
first `0x00 0x00` pair at or after `s` (`rem` dominates the remaining
search space). -/
def findEocAux (data : List Nat) : Nat → Nat → Option Nat
  | 0, _ => none
  | rem + 1, s =>
    if s + 1 < data.length then
      if byteAt data s = 0 ∧ byteAt data (s + 1) = 0 then some s
      else findEocAux data rem (s + 1)
    else none

/-- The EOC search starting at `start` (both the length computation and
the position advance of `IndefiniteWithEoc` run this same scan). -/
def findEoc (data : List Nat) (start : Nat) : Option Nat :=
  findEocAux data (data.length - start) start

/-- Rust `TlvLenRule` length-field size. -/
def TlvLenRule.fieldSize : TlvLenRule → Nat
  | .definiteShort => 1
  | .definiteMedium => 2
  | .definiteLong => 4
  | .indefiniteWithEoc => 0

/-- The tail of a TLV iteration after the length `len` was read
successfully (from `let length_field_size = ...` to the position
advance).  `header_size = length_end - tag_start` is a `usize`
subtraction in Rust: when `length_end < tag_start` it wraps to a huge
value in a release build, so `len >= header_size` fails and the
"Length too small to include header" break is taken; the model encodes
that via the explicit `tag_start ≤ length_end` test. -/
def tlvCont (tagOff tagBytes lenOff : Nat) (rule : TlvLenRule) (incl : Bool)
    (data : List Nat) (pos : Nat) (segs : List Segment) (excs : List String)
    (len : Nat) : StepRes :=
  let tag_start := pos + tagOff
  let length_start := pos + lenOff
  let lfs := rule.fieldSize
  let length_end := length_start + lfs
  let segs := if tag_start + tagBytes < length_start then
    segs ++ [Segment.mk' .pci (tag_start + tagBytes) length_start] else segs
  let segs := if lfs > 0 then
    segs ++ [Segment.mk' (.field "length") length_start length_end] else segs
  let value_start := length_end
  let remaining_bytes := data.length - value_start
  if len > remaining_bytes + 1000 then
    .done ⟨segs, excs ++
      [s!"Length field appears invalid: len={len}, remaining={remaining_bytes}, stopping TLV parsing"]⟩
  else
    let header_size := length_end - tag_start
    if incl ∧ ¬(tag_start ≤ length_end ∧ header_size ≤ len) then
      .done ⟨segs, excs ++
        [s!"Length too small to include header: len={len}, header_size={header_size}"]⟩
    else
      let actual_len := if incl then len - header_size else len
      if value_start + actual_len > data.length then
        .done ⟨segs, excs ++
          [s!"Value extends beyond PDU: value_start={value_start}, actual_len={actual_len}, data_len={data.length}, remaining={data.length - value_start}"]⟩
      else
        let remaining := data.length - value_start
        if actual_len > remaining then
          .done ⟨segs, excs ++
            [s!"Length too large for remaining data: actual_len={actual_len}, remaining={remaining}"]⟩
        else
          let segs := if actual_len > 0 then
            segs ++ [Segment.mk' .sdu value_start (value_start + actual_len)] else segs
          if rule = .indefiniteWithEoc then
            match findEoc data length_start with
            | some e => .cont (e + 2) segs excs
            | none => .cont pos segs excs
          else
            if incl then .cont (tag_start + len) segs excs
            else .cont (value_start + actual_len) segs excs

/-- One iteration of the `TlvParser` loop: tag bounds check, optional
leading PCI, tag field, then the length read dispatched on the rule
(breaking with an exception on insufficient bytes), then `tlvCont`. -/
def tlvStep (tagOff tagBytes lenOff : Nat) (rule : TlvLenRule) (incl : Bool)
    (data : List Nat) (pos : Nat) (segs : List Segment) (excs : List String) : StepRes :=
  let tag_start := pos + tagOff
  if tag_start + tagBytes > data.length then
    .done ⟨segs ++ [Segment.mk' (.error "Incomplete tag") pos data.length],
      excs ++ ["Incomplete tag"]⟩
  else
    let segs := if tagOff > 0 ∧ pos < tag_start then
      segs ++ [Segment.mk' .pci pos tag_start] else segs
    let segs := segs ++ [Segment.mk' (.field "tag") tag_start (tag_start + tagBytes)]
    let length_start := pos + lenOff
    match rule with
    | .definiteShort =>
      if length_start ≥ data.length then .done ⟨segs, excs ++ ["Incomplete length"]⟩
      else tlvCont tagOff tagBytes lenOff rule incl data pos segs excs (byteAt data length_start)
    | .definiteMedium =>
      if length_start + 2 > data.length then .done ⟨segs, excs ++ ["Incomplete length"]⟩
      else tlvCont tagOff tagBytes lenOff rule incl data pos segs excs
        (256 * byteAt data length_start + byteAt data (length_start + 1))
    | .definiteLong =>
      if length_start + 4 > data.length then .done ⟨segs, excs ++ ["Incomplete length"]⟩
      else tlvCont tagOff tagBytes lenOff rule incl data pos segs excs
        (16777216 * byteAt data length_start + 65536 * byteAt data (length_start + 1) +
          256 * byteAt data (length_start + 2) + byteAt data (length_start + 3))
    | .indefiniteWithEoc =>
      match findEoc data length_start with
      | none => .done ⟨segs, excs ++ ["EOC not found"]⟩
      | some e => tlvCont tagOff tagBytes lenOff rule incl data pos segs excs (e - length_start)

/-- Rust `TlvParser` on a single PDU's bytes. -/
def tlvParsePdu (tagOff tagBytes lenOff : Nat) (rule : TlvLenRule) (incl : Bool)
    (data : List Nat) : ParsedPdu :=
  runLoop data.length (tlvStep tagOff tagBytes lenOff rule incl data) (data.length + 1) 0 [] []

/-- Rust `TlvParser::applicable`. -/
def tlvApplicable : Hypothesis → Bool
  | .tlv .. => true
  | _ => false

/-- Rust `TlvParser::parse_corpus`. -/
def tlvParseCorpus (corpus : Corpus) : Hypothesis → ParsedCorpus
  | .tlv tagOff tagBytes lenOff rule incl =>
    ParsedCorpus.mk' (corpus.items.map (fun p => tlvParsePdu tagOff tagBytes lenOff rule incl p.as_slice))
  | _ => ParsedCorpus.mk' []

/-! ## Varint parser (`plugins/parsers.rs`, `VarintParser`) -/

/-- The key-varint read loop: returns `(key_bytes, pos, key_value)`.
`rem` counts `key_max_bytes - key_bytes`.  The Rust accumulator is a
`u64` built with `|=` of disjoint 7-bit chunks, which coincides with
this `Nat` sum on the bits that are ever consumed (`key_value & 0x7`
comes from the first chunk alone). -/
def readKeyAux (data : List Nat) : Nat → Nat → Nat → Nat → Nat × Nat × Nat
  | 0, pos, kb, acc => (kb, pos, acc)
  | rem + 1, pos, kb, acc =>
    if pos < data.length then
      let byte := byteAt data pos
      let acc' := acc + (byte % 128) * 2 ^ (kb * 7)
      if Nat.testBit byte 7 then readKeyAux data rem (pos + 1) (kb + 1) acc'
      else (kb + 1, pos + 1, acc')
    else (kb, pos, acc)

/-- The wire-type-0 value varint: consume up to `rem` bytes (10 in the
code) while the continuation bit is set; returns the new position. -/
def readVarintVal (data : List Nat) : Nat → Nat → Nat
  | 0, pos => pos
  | rem + 1, pos =>
    if pos < data.length then
      if Nat.testBit (byteAt data pos) 7 then readVarintVal data rem (pos + 1)
      else pos + 1
    else pos

/-- One iteration of the `VarintParser` loop.  The too-long check reads
`data[pos - 1]`, which in Rust panics when no key byte was consumed
(only possible for `key_max_bytes = 0`, which no built-in hypothesis
produces); the model's `Nat` subtraction is total there. -/
def varintStep (kmb : Nat) (data : List Nat) (pos : Nat) (segs : List Segment)
    (excs : List String) : StepRes :=
  let key_start := pos
  let r := readKeyAux data kmb pos 0 0
  let key_bytes := r.1
  let pos := r.2.1
  let key_value := r.2.2
  if key_bytes ≥ kmb ∧ pos < data.length ∧ Nat.testBit (byteAt data (pos - 1)) 7 then
    .done ⟨segs, excs ++ ["Varint key too long"]⟩
  else
    let segs := segs ++ [Segment.mk' (.field "key") key_start pos]
    let wire_type := key_value % 8
    if wire_type = 0 then
      let pos' := readVarintVal data 10 pos
      .cont pos' (segs ++ [Segment.mk' (.field "value_varint") pos pos']) excs
    else if wire_type = 1 then
      if pos + 8 > data.length then .done ⟨segs, excs ++ ["Incomplete fixed64"]⟩
      else .cont (pos + 8) (segs ++ [Segment.mk' (.field "value_fixed64") pos (pos + 8)]) excs
    else if wire_type = 2 then
      if pos ≥ data.length then .done ⟨segs, excs ++ ["Incomplete length"]⟩
      else
        let len := byteAt data pos
        let pos1 := pos + 1
        if pos1 + len > data.length then
          .done ⟨segs, excs ++ ["Length-delimited value extends beyond PDU"]⟩
        else
          .cont (pos1 + len)
            (segs ++ [Segment.mk' (.field "value_length") (pos1 - 1) pos1,
              Segment.mk' .sdu pos1 (pos1 + len)]) excs
    else if wire_type = 5 then
      if pos + 4 > data.length then .done ⟨segs, excs ++ ["Incomplete fixed32"]⟩
      else .cont (pos + 4) (segs ++ [Segment.mk' (.field "value_fixed32") pos (pos + 4)]) excs
    else .done ⟨segs, excs ++ [s!"Unknown wire type: {wire_type}"]⟩

/-- Rust `VarintParser` on a single PDU's bytes. -/
def varintParsePdu (kmb : Nat) (data : List Nat) : ParsedPdu :=
  runLoop data.length (varintStep kmb data) (data.length + 1) 0 [] []

/-- Rust `VarintParser::applicable`. -/
def varintApplicable : Hypothesis → Bool
  | .varintKeyWireType .. => true
  | _ => false

/-- Rust `VarintParser::parse_corpus`. -/
def varintParseCorpus (corpus : Corpus) : Hypothesis → ParsedCorpus
  | .varintKeyWireType kmb _ =>
    ParsedCorpus.mk' (corpus.items.map (fun p => varintParsePdu kmb p.as_slice))
  | _ => ParsedCorpus.mk' []

end AIRE

namespace AIRE

/-! ## Generators (`plugins/generators.rs`) -/

/-- A default `PduRef` (only used to model the `corpus.items[0]` access,
which the code guards by the non-emptiness check). -/
def PduRef.dflt : PduRef := ⟨⟨0, []⟩, 0, 0⟩

/-- Rust `LengthPrefixGenerator::propose`. -/
def lpGeneratorPropose (corpus : Corpus) : List Hypothesis :=
  if corpus.items.isEmpty then []
  else
    (List.range 5).flatMap (fun offset =>
      [LengthWidth.one, LengthWidth.two, LengthWidth.four].flatMap (fun width =>
        [Endianness.little, Endianness.big].map (fun endian =>
          Hypothesis.lengthPrefixBundle offset width endian false)))

/-- Rust `DelimiterGenerator::propose`. -/
def delimGeneratorPropose (corpus : Corpus) : List Hypothesis :=
  if corpus.items.isEmpty then []
  else [[0, 0], [10], [13, 10], [255, 255]].map Hypothesis.delimiterBundle

/-- Rust `FixedHeaderGenerator::propose`: `for len in 2..=32.min(first_len)`. -/
def fhGeneratorPropose (corpus : Corpus) : List Hypothesis :=
  if corpus.items.isEmpty then []
  else
    let top := min 32 (corpus.items.headD PduRef.dflt).len
    (List.range' 2 (top - 1)).map Hypothesis.fixedHeader

/-- Rust `ExtensibleBitmapGenerator::propose`. -/
def ebGeneratorPropose (corpus : Corpus) : List Hypothesis :=
  if corpus.items.isEmpty then []
  else
    (List.range 5).flatMap (fun start =>
      (List.range 8).flatMap (fun cont_bit =>
        [0, 1].map (fun stop_value =>
          Hypothesis.extensibleBitmap start cont_bit stop_value 8)))

/-- Rust `TlvGenerator::propose` (note: the corpus argument is ignored —
`_corpus` in the source — so the fixed product is returned even for an
empty corpus). -/
def tlvGeneratorPropose (_corpus : Corpus) : List Hypothesis :=
  (List.range 3).flatMap (fun tag_offset =>
    (List.range' 1 3).flatMap (fun tag_bytes =>
      (List.range 2).flatMap (fun delta =>
        [TlvLenRule.definiteShort, TlvLenRule.definiteMedium, TlvLenRule.definiteLong].flatMap
          (fun len_rule =>
            [false, true].map (fun incl =>
              Hypothesis.tlv tag_offset tag_bytes (tag_offset + tag_bytes + delta) len_rule incl)))))

/-- Rust `VarintGenerator::propose` (also ignores the corpus). -/
def varintGeneratorPropose (_corpus : Corpus) : List Hypothesis :=
  [Hypothesis.varintKeyWireType 5 false,
   Hypothesis.varintKeyWireType 5 true,
   Hypothesis.varintKeyWireType 10 false]

/-! ## Oracles for the external numeric routines -/

/-- The two `measures.rs` routines the scorer consumes, abstracted:
`ent` stands for `entropy` (Shannon byte-entropy, an `f64` the code
computes with `log2`), `csize` for `compressed_size` (the `flate2`
deflate length, `none` = `Err`), and `lg` for `f64::log2` as used in
`estimate_model_bits`.  All theorems hold for every choice of oracles;
refutations instantiate them consistently with the real functions on
the buffers involved. -/
structure Oracles where
  ent : List Nat → ℚ
  csize : List Nat → Option Nat
  lg : Nat → ℚ

/-! ## MDL scorer (`plugins/scorers.rs`) -/

/-- Rust `str::contains` on the model's strings: the pattern occurs as a
contiguous run of the haystack. -/
def strContains (hay pat : String) : Bool :=
  (List.range (hay.toList.length + 1)).any
    (fun i => pat.toList.isPrefixOf (hay.toList.drop i))

/-- The five overflow substrings of the fatal-exception screen. -/
def isOverflowExc (e : String) : Bool :=
  strContains e "extends beyond PDU" ||
  strContains e "Length too large for remaining data" ||
  strContains e "Message extends beyond PDU" ||
  strContains e "Bitmap extends beyond PDU" ||
  strContains e "Length-delimited value extends beyond PDU"

/-- Rust `has_pdu_overflow_exceptions` in `MdlScorer::score`. -/
def hasOverflowExcs (pc : ParsedCorpus) : Bool :=
  pc.parsed_pdus.any (fun p => p.exceptions.any isOverflowExc)

/-- Rust `&pdu.as_slice()[segment.range]`. -/
def segSlice (pdu : PduRef) (s : Segment) : List Nat :=
  ((pdu.as_slice).drop s.first).take (s.last - s.first)

/-- Kind tests used to partition segment bytes. -/
def SegmentKind.isPci : SegmentKind → Bool
  | .pci => true
  | _ => false

def SegmentKind.isSdu : SegmentKind → Bool
  | .sdu => true
  | _ => false

def SegmentKind.isFieldKind : SegmentKind → Bool
  | .field _ => true
  | _ => false

/-- The per-kind concatenated buffer (`pci_data` / `field_data` /
`sdu_data` of `MdlScorer::score`): segment slices of matching kind in
corpus order. -/
def concatSegData (c : Corpus) (pc : ParsedCorpus) (keep : SegmentKind → Bool) : List Nat :=
  (c.items.zip pc.parsed_pdus).flatMap (fun pr =>
    (pr.2.segments.filter (fun s => keep s.kind)).flatMap (segSlice pr.1))

/-- The `min(entropy·len, 8·deflate)` pattern used for the model and
data terms (the `unwrap_or` falls back to `entropy·len`). -/
def encBits (O : Oracles) (buf : List Nat) : ℚ :=
  let e := O.ent buf * buf.length
  let comp := match O.csize buf with
    | some s => (s : ℚ) * 8
    | none => e
  min e comp

/-- Rust `8·deflate_size(buf)` with the `unwrap_or_else(entropy·len)`
fallback, as used for every component of `entropy_drop_bits`. -/
def dzBits (O : Oracles) (buf : List Nat) : ℚ :=
  match O.csize buf with
  | some s => (s : ℚ) * 8
  | none => O.ent buf * buf.length

/-- Rust `estimate_model_bits`.  For `FixedHeader`, `(*len as f64).log2()`
is abstracted by the `lg` oracle. -/
def estimateModelBits (O : Oracles) : Hypothesis → ℚ
  | .lengthPrefixBundle .. => 32
  | .delimiterBundle pattern => 16 + (pattern.length : ℚ) * 8
  | .fixedHeader len => 16 + O.lg len * 2
  | .extensibleBitmap .. => 40
  | .tlv .. => 24
  | .varintKeyWireType .. => 24

/-- The `entropy_drop_bits` block of `MdlScorer::score`: compare the
deflate size of the raw concatenation against the summed deflate sizes
of the three model buffers (empty components contribute `0`). -/
def entropyDropCode (O : Oracles) (c : Corpus) (pc : ParsedCorpus) : ℚ :=
  let pci_data := concatSegData c pc SegmentKind.isPci
  let field_data := concatSegData c pc SegmentKind.isFieldKind
  let sdu_data := concatSegData c pc SegmentKind.isSdu
  let raw_data := c.items.flatMap PduRef.as_slice
  if raw_data.isEmpty then 0
  else
    let pci_c := if pci_data.isEmpty then 0 else dzBits O pci_data
    let field_c := if field_data.isEmpty then 0 else dzBits O field_data
    let sdu_c := if sdu_data.isEmpty then 0 else dzBits O sdu_data
    let model_c := pci_c + field_c + sdu_c
    let raw_c := dzBits O raw_data
    if model_c < raw_c then max (raw_c - model_c) 0 else 0

/-- Rust `MdlScorer::score`. -/
def mdlScore (O : Oracles) (minPsr : ℚ) (c : Corpus) (pc : ParsedCorpus)
    (h : Hypothesis) : Score :=
  if hasOverflowExcs pc then
    Score.new ⟨FV.pinf, FV.pinf, 0, FV.fin 0, FV.fin 0, FV.pinf⟩
  else
    let psr := pc.parse_success_ratio
    if psr < minPsr then
      Score.new ⟨FV.pinf, FV.pinf, psr, FV.fin 0, FV.fin 0, FV.pinf⟩
    else
      let pci_data := concatSegData c pc SegmentKind.isPci
      let field_data := concatSegData c pc SegmentKind.isFieldKind
      let sdu_data := concatSegData c pc SegmentKind.isSdu
      let mdl_model_bits := estimateModelBits O h +
        (if pci_data.isEmpty then 0 else encBits O pci_data) +
        (if field_data.isEmpty then 0 else encBits O field_data)
      let mdl_data_bits := if sdu_data.isEmpty then (c.total_bytes : ℚ) * 8
        else encBits O sdu_data
      let avg_segments : ℚ :=
        ((pc.parsed_pdus.map (fun p => p.segments.length)).sum : ℚ) /
          (max pc.parsed_pdus.length 1 : ℚ)
      let pen_over := if 10 < avg_segments then (avg_segments - 10) * 8 else 0
      let exception_count := (pc.parsed_pdus.map (fun p => p.exceptions.length)).sum
      let small_segments :=
        ((pc.parsed_pdus.flatMap (fun p => p.segments)).filter (fun s => s.len < 2)).length
      let penalties_bits := pen_over + (exception_count : ℚ) * 16 + (small_segments : ℚ) * 4
      let entropy_drop_bits := entropyDropCode O c pc
      Score.new ⟨FV.fin mdl_model_bits, FV.fin mdl_data_bits, psr, FV.fin 0,
        FV.fin entropy_drop_bits, FV.fin penalties_bits⟩

/-- Rust `MdlScorer::new().min_parse_success_ratio`: the literal `0.95`
(modelled by the exact rational `19/20`). -/
def mdlScorerDefaultMinPsr : ℚ := 19 / 20

end AIRE

namespace AIRE

/-! ## Plugin registry (`plugin.rs`) and the default plugins
(`plugins/mod.rs`).  The trait objects are modelled as records of the
functions the traits expose plus the plugin's `name()`. -/

structure GeneratorP where
  name : String
  propose : Corpus → List Hypothesis

structure ParserP where
  name : String
  applicable : Hypothesis → Bool
  parse_corpus : Corpus → Hypothesis → ParsedCorpus

structure ScorerP where
  name : String
  score : Corpus → ParsedCorpus → Hypothesis → Score

structure PluginRegistry where
  generators : List GeneratorP
  parsers : List ParserP
  scorers : List ScorerP

/-- Rust `PluginRegistry::new`: all three collections empty. -/
def PluginRegistry.new : PluginRegistry := ⟨[], [], []⟩

/-- Rust `impl Default for PluginRegistry`: `Self::new()` — the EMPTY
registry, not the populated one. -/
def PluginRegistry.dflt : PluginRegistry := PluginRegistry.new

/-- Rust `PluginRegistry::register_generator` and friends (push at the
back; camelCase names here). -/
def PluginRegistry.registerGenerator (r : PluginRegistry) (g : GeneratorP) : PluginRegistry :=
  { r with generators := r.generators ++ [g] }

def PluginRegistry.registerParser (r : PluginRegistry) (p : ParserP) : PluginRegistry :=
  { r with parsers := r.parsers ++ [p] }

def PluginRegistry.registerScorer (r : PluginRegistry) (s : ScorerP) : PluginRegistry :=
  { r with scorers := r.scorers ++ [s] }

def lengthPrefixGeneratorP : GeneratorP := ⟨"LengthPrefixGenerator", lpGeneratorPropose⟩
def delimiterGeneratorP : GeneratorP := ⟨"DelimiterGenerator", delimGeneratorPropose⟩
def fixedHeaderGeneratorP : GeneratorP := ⟨"FixedHeaderGenerator", fhGeneratorPropose⟩
def extensibleBitmapGeneratorP : GeneratorP := ⟨"ExtensibleBitmapGenerator", ebGeneratorPropose⟩
def tlvGeneratorP : GeneratorP := ⟨"TlvGenerator", tlvGeneratorPropose⟩
def varintGeneratorP : GeneratorP := ⟨"VarintGenerator", varintGeneratorPropose⟩

def lengthPrefixParserP : ParserP := ⟨"LengthPrefixParser", lpApplicable, lpParseCorpus⟩
def delimiterParserP : ParserP := ⟨"DelimiterParser", delimApplicable, delimParseCorpus⟩
def fixedHeaderParserP : ParserP := ⟨"FixedHeaderParser", fhApplicable, fhParseCorpus⟩
def extensibleBitmapParserP : ParserP := ⟨"ExtensibleBitmapParser", ebApplicable, ebParseCorpus⟩
def tlvParserP : ParserP := ⟨"TlvParser", tlvApplicable, tlvParseCorpus⟩
def varintParserP : ParserP := ⟨"VarintParser", varintApplicable, varintParseCorpus⟩

/-- Rust `MdlScorer::new()` as a plugin (threshold `0.95`). -/
def mdlScorerP (O : Oracles) : ScorerP := ⟨"MdlScorer", mdlScore O mdlScorerDefaultMinPsr⟩

/-- Rust `plugins/mod.rs`: `create_default_registry` — the sequence of
`register_*` pushes starting from `PluginRegistry::new()`. -/
def createDefaultRegistry (O : Oracles) : PluginRegistry :=
  ((((((((((((PluginRegistry.new.registerGenerator lengthPrefixGeneratorP).registerGenerator
    delimiterGeneratorP).registerGenerator fixedHeaderGeneratorP).registerGenerator
    extensibleBitmapGeneratorP).registerGenerator tlvGeneratorP).registerGenerator
    varintGeneratorP).registerParser lengthPrefixParserP).registerParser
    delimiterParserP).registerParser fixedHeaderParserP).registerParser
    extensibleBitmapParserP).registerParser tlvParserP).registerParser
    varintParserP).registerScorer (mdlScorerP O)

/-! ## Inference engine (`inference.rs`) -/

structure HypothesisResult where
  hypothesis : Hypothesis
  score : Score
  parsed : ParsedCorpus
deriving DecidableEq

structure Layer where
  hypothesis : Hypothesis
  score : Score
  parsed : ParsedCorpus
  sdu_corpus : Option Corpus
  all_hypotheses : List HypothesisResult
deriving DecidableEq

structure InferenceResult where
  layers : List Layer
  corpus : Corpus
deriving DecidableEq

structure InferenceEngine where
  max_depth : Nat
  top_k : Nat
  min_gain_epsilon : ℚ
  min_sdu_size : Nat

/-- Rust `InferenceEngine::new`. -/
def InferenceEngine.new : InferenceEngine := ⟨6, 10, 100, 4⟩

/-- The comparator `a.1.partial_cmp(&b.1).unwrap_or(Equal)` on scored
triples. -/
def scoredCmp (a b : Hypothesis × Score × ParsedCorpus) : Ordering :=
  FV.pcmp a.2.1.total_bits b.2.1.total_bits

/-- Stable insertion (equal-comparing elements keep their original
relative order, like Rust's stable `sort_by`). -/
def insertSorted (x : Hypothesis × Score × ParsedCorpus) :
    List (Hypothesis × Score × ParsedCorpus) → List (Hypothesis × Score × ParsedCorpus)
  | [] => [x]
  | y :: ys => if scoredCmp x y = .gt then y :: insertSorted x ys else x :: y :: ys

/-- The ascending stable sort of the scored candidates. -/
def sortScored : List (Hypothesis × Score × ParsedCorpus) →
    List (Hypothesis × Score × ParsedCorpus)
  | [] => []
  | x :: xs => insertSorted x (sortScored xs)

/-- Rust `InferenceEngine::raw_score`: model 0, data `8 · deflate(all bytes)`
(falling back to `8 · total_bytes` on a deflate error), PSR 1, no
penalties. -/
def rawScore (csize : List Nat → Option Nat) (c : Corpus) : Score :=
  let bytes := c.items.flatMap PduRef.as_slice
  let total_bits : ℚ := match csize bytes with
    | some s => (s : ℚ) * 8
    | none => (c.total_bytes : ℚ) * 8
  Score.new ⟨FV.fin 0, FV.fin total_bits, 1, FV.fin 0, FV.fin 0, FV.fin 0⟩

/-- Rust `InferenceEngine::extract_sdu_corpus`.  NOTE (faithful to the
source): the kept-length test reads the bytes through the parent's
slice (`&pdu.as_slice()[segment.range]`), but the new `PduRef` applies
`segment.range` directly to the underlying buffer without rebasing by
the parent's `range.start`. -/
def extractSduCorpus (E : InferenceEngine) (c : Corpus) (pc : ParsedCorpus) : Option Corpus :=
  let sdu_items := (c.items.zip pc.parsed_pdus).flatMap (fun pr =>
    pr.2.segments.filterMap (fun s =>
      if s.kind.isSdu then
        let sdu_data := segSlice pr.1 s
        if E.min_sdu_size ≤ sdu_data.length then some (PduRef.mk pr.1.buf s.first s.last)
        else none
      else none))
  if sdu_items.isEmpty then none
  else
    some ⟨sdu_items,
      ⟨c.meta.source ++ "_sdu", (sdu_items.map PduRef.len).sum, sdu_items.length,
        c.meta.flow_id⟩⟩

/-- The depth loop of `InferenceEngine::infer`, returning each adopted
`Layer` paired with the corpus of its depth (the Rust loop accumulates
only the layers; `infer` below projects them out).  The tracing /
logging blocks of the source have no effect on the result and are not
modelled. -/
def inferAux (E : InferenceEngine) (reg : PluginRegistry) (csize : List Nat → Option Nat) :
    Nat → Corpus → List (Corpus × Layer)
  | 0, _ => []
  | d + 1, cur =>
    if cur.items.isEmpty then []
    else
      let avg : ℚ := ((cur.items.map PduRef.len).sum : ℚ) / (max cur.items.length 1 : ℚ)
      if avg < (E.min_sdu_size : ℚ) then []
      else
        let hypotheses := reg.generators.flatMap (fun g => g.propose cur)
        if hypotheses.isEmpty then []
        else
          let scored := hypotheses.filterMap (fun h =>
            match reg.parsers.find? (fun p => p.applicable h) with
            | none => none
            | some p =>
              let parsed := p.parse_corpus cur h
              match reg.scorers.head? with
              | none => none
              | some sc => some (h, sc.score cur parsed h, parsed))
          if scored.isEmpty then []
          else
            let sorted := sortScored scored
            let top_k_results := sorted.take E.top_k
            match top_k_results with
            | [] => []
            | (bh, bs, bp) :: _ =>
              let raw := rawScore csize cur
              let gain := raw.total_bits.sub bs.total_bits
              if gain.lt (FV.fin E.min_gain_epsilon) then []
              else
                let sdu_corpus := extractSduCorpus E cur bp
                let all_h := top_k_results.map (fun t => HypothesisResult.mk t.1 t.2.1 t.2.2)
                let layer := Layer.mk bh bs bp sdu_corpus all_h
                (cur, layer) :: (match sdu_corpus with
                  | some sc => inferAux E reg csize d sc
                  | none => [])

/-- Rust `InferenceEngine::infer`. -/
def infer (E : InferenceEngine) (reg : PluginRegistry) (csize : List Nat → Option Nat)
    (corpus : Corpus) : InferenceResult :=
  ⟨(inferAux E reg csize E.max_depth corpus).map Prod.snd, corpus⟩

end AIRE

namespace AIRE

/-! ## Concrete instances used by witnesses and counterexamples -/

/-- Oracles used in concrete instances: zero entropy, `deflate = length`.
Every buffer these instances feed to `ent` is a constant byte list, whose
Shannon entropy is exactly `0`, so this instantiation is consistent with
the real `measures::entropy`; and any real deflate output is non-empty,
which is all the refutations rely on. -/
def exOracles : Oracles := ⟨fun _ => 0, fun l => some l.length, fun _ => 0⟩

/-- An empty corpus. -/
def emptyCorpus : Corpus := ⟨[], ⟨"t", 0, 0, none⟩⟩

/-- C1 inputs: a parent `PduRef` whose range does not start at offset 0
of the shared buffer, and a parsed SDU segment covering its whole slice. -/
def c1Buf : Buf := ⟨0, [9, 9, 1, 2, 3, 4, 5, 6]⟩

def c1Parent : PduRef := ⟨c1Buf, 2, 8⟩

def c1Corpus : Corpus := ⟨[c1Parent], ⟨"t", 6, 1, none⟩⟩

def c1Seg : Segment := Segment.mk' .sdu 0 6

def c1Parsed : ParsedCorpus := ⟨[⟨[c1Seg], []⟩], []⟩

/-- C1: `InferenceEngine::extract_sdu_corpus` builds the child `PduRef`
from `segment.range` applied to the raw buffer without rebasing by the
parent's `range.start`.  At this input (parent range `2..8` over the
buffer, SDU segment `0..6` relative to the parent's slice) the produced
`PduRef` shares the parent's buffer handle (id 0) but views bytes
`[9,9,1,2,3,4]`, not the segment's bytes `[1,2,3,4,5,6]` — so the
zero-copy claim's view requirement fails at any depth whose parent
range does not start at 0, although buffer identity is preserved. -/
theorem claim_C1_extract_sdu_misaligned :
    ((extractSduCorpus InferenceEngine.new c1Corpus c1Parsed).map
      (fun c => c.items.map (fun r => (r.buf.id, r.as_slice)))) =
        some [(0, [9, 9, 1, 2, 3, 4])] ∧
    c1Parent.buf.id = 0 ∧
    segSlice c1Parent c1Seg = [1, 2, 3, 4, 5, 6] ∧
    ([9, 9, 1, 2, 3, 4] : List Nat) ≠ [1, 2, 3, 4, 5, 6] := by
  refine ⟨by decide, rfl, by decide, by decide⟩

/-- C2 (counterexample): `PluginRegistry::default()` delegates to
`PluginRegistry::new()`, so all three collections are empty — the claim
that it returns the six generators, six parsers and the MDL scorer
(non-empty collections) is false. -/
theorem claim_C2_default_registry_empty :
    PluginRegistry.dflt.generators = [] ∧ PluginRegistry.dflt.parsers = [] ∧
      PluginRegistry.dflt.scorers = [] :=
  ⟨rfl, rfl, rfl⟩

/-- C2 (amended): `PluginRegistry::default()` is the empty registry;
it is `create_default_registry()` (in `plugins/mod.rs`) that returns
the six generators, the six parsers and the MDL scorer pre-registered,
in exactly that order. -/
theorem claim_C2_amended_registries :
    PluginRegistry.dflt = PluginRegistry.new ∧
    ∀ O : Oracles,
      (createDefaultRegistry O).generators =
        [lengthPrefixGeneratorP, delimiterGeneratorP, fixedHeaderGeneratorP,
          extensibleBitmapGeneratorP, tlvGeneratorP, varintGeneratorP] ∧
      (createDefaultRegistry O).parsers =
        [lengthPrefixParserP, delimiterParserP, fixedHeaderParserP,
          extensibleBitmapParserP, tlvParserP, varintParserP] ∧
      (createDefaultRegistry O).scorers = [mdlScorerP O] :=
  ⟨rfl, fun _ => ⟨rfl, rfl, rfl⟩⟩

/-- C6 (counterexample): `TlvGenerator::propose` ignores its corpus
argument (`_corpus` in the source), so it returns its fixed 108-element
product even on the empty corpus — the claim that every built-in
generator proposes nothing on an empty corpus is false. -/
theorem claim_C6_tlv_nonempty_on_empty :
    emptyCorpus.items = [] ∧ tlvGeneratorPropose emptyCorpus ≠ [] := by
  exact ⟨rfl, by decide⟩

/-- C6 (amended): on an empty corpus the LengthPrefix, Delimiter,
FixedHeader and ExtensibleBitmap generators propose nothing, while the
TLV and Varint generators ignore the corpus entirely and return their
fixed non-empty lists (108 and 3 hypotheses) regardless of the corpus. -/
theorem claim_C6_amended_generators (c : Corpus) (hc : c.items = []) :
    lpGeneratorPropose c = [] ∧ delimGeneratorPropose c = [] ∧
    fhGeneratorPropose c = [] ∧ ebGeneratorPropose c = [] ∧
    (∀ c' : Corpus, (tlvGeneratorPropose c').length = 108 ∧
      (varintGeneratorPropose c').length = 3) := by
  refine ⟨?_, ?_, ?_, ?_, fun c' => ⟨rfl, rfl⟩⟩ <;>
    simp [lpGeneratorPropose, delimGeneratorPropose, fhGeneratorPropose,
      ebGeneratorPropose, hc]

/-- C6 amended-claim witness at the empty corpus. -/
theorem claim_C6_amended_generators_witness :
    emptyCorpus.items = [] ∧
    (lpGeneratorPropose emptyCorpus = [] ∧ delimGeneratorPropose emptyCorpus = [] ∧
     fhGeneratorPropose emptyCorpus = [] ∧ ebGeneratorPropose emptyCorpus = [] ∧
     (∀ c' : Corpus, (tlvGeneratorPropose c').length = 108 ∧
       (varintGeneratorPropose c').length = 3)) :=
  ⟨rfl, claim_C6_amended_generators emptyCorpus rfl⟩

end AIRE

namespace AIRE

/-- C3: if any `ParsedPdu` carries an exception string containing one of
the five overflow substrings, `MdlScorer::score` returns a score whose
`total_bits` is `+∞` and whose `parse_success_ratio` field is `0`,
whatever the actual success fraction and the other inputs. -/
theorem claim_C3_overflow_rejection (O : Oracles) (c : Corpus) (pc : ParsedCorpus)
    (h : Hypothesis)
    (hov : ∃ pp ∈ pc.parsed_pdus, ∃ e ∈ pp.exceptions, isOverflowExc e = true) :
    (mdlScore O mdlScorerDefaultMinPsr c pc h).total_bits = FV.pinf ∧
    (mdlScore O mdlScorerDefaultMinPsr c pc h).breakdown.parse_success_ratio = 0 := by
  have hb : hasOverflowExcs pc = true := by
    rcases hov with ⟨pp, hpp, e, he, hexc⟩
    simp only [hasOverflowExcs, List.any_eq_true]
    exact ⟨pp, hpp, e, he, hexc⟩
  constructor <;> simp [mdlScore, hb, Score.new, ScoreBreakdown.total_bits, FV.add, FV.sub, FV.neg]

/-- A parsed corpus with an overflow exception but a fully successful
PDU (no `Error` segments), used to witness C3. -/
def c3Parsed : ParsedCorpus := ⟨[⟨[], ["Message extends beyond PDU at pos 0"]⟩], []⟩

/-- C3 witness: the overflow screen at a concrete input (note the PDU
parses "successfully" — the ratio field is still forced to `0`). -/
theorem claim_C3_overflow_rejection_witness :
    (∃ pp ∈ c3Parsed.parsed_pdus, ∃ e ∈ pp.exceptions, isOverflowExc e = true) ∧
    ((mdlScore exOracles mdlScorerDefaultMinPsr emptyCorpus c3Parsed
        (.fixedHeader 4)).total_bits = FV.pinf ∧
     (mdlScore exOracles mdlScorerDefaultMinPsr emptyCorpus c3Parsed
        (.fixedHeader 4)).breakdown.parse_success_ratio = 0) :=
  ⟨by decide, claim_C3_overflow_rejection exOracles emptyCorpus c3Parsed
    (.fixedHeader 4) (by decide)⟩

/-- C4: with no overflow exception and `parse_success_ratio < 0.95`,
`MdlScorer::score` returns `total_bits = +∞`; the breakdown carries the
actual ratio, its model, data and penalties fields are `+∞` while
`alignment_gain` and `entropy_drop` are the finite `0`, and the total is
`+∞` — not NaN. -/
theorem claim_C4_psr_gating (O : Oracles) (c : Corpus) (pc : ParsedCorpus) (h : Hypothesis)
    (hov : hasOverflowExcs pc = false)
    (hlow : pc.parse_success_ratio < mdlScorerDefaultMinPsr) :
    (mdlScore O mdlScorerDefaultMinPsr c pc h).total_bits = FV.pinf ∧
    (mdlScore O mdlScorerDefaultMinPsr c pc h).breakdown.parse_success_ratio =
      pc.parse_success_ratio ∧
    (mdlScore O mdlScorerDefaultMinPsr c pc h).breakdown.mdl_model_bits = FV.pinf ∧
    (mdlScore O mdlScorerDefaultMinPsr c pc h).breakdown.mdl_data_bits = FV.pinf ∧
    (mdlScore O mdlScorerDefaultMinPsr c pc h).breakdown.penalties_bits = FV.pinf ∧
    (mdlScore O mdlScorerDefaultMinPsr c pc h).breakdown.alignment_gain_bits = FV.fin 0 ∧
    (mdlScore O mdlScorerDefaultMinPsr c pc h).breakdown.entropy_drop_bits = FV.fin 0 ∧
    (mdlScore O mdlScorerDefaultMinPsr c pc h).total_bits ≠ FV.nan := by
  refine ⟨?_, ?_, ?_, ?_, ?_, ?_, ?_, ?_⟩ <;>
    simp [mdlScore, hov, hlow, Score.new, ScoreBreakdown.total_bits, FV.add, FV.sub, FV.neg]

/-- A parsed corpus whose single PDU failed (an `Error` segment) with no
exception strings: PSR `0 < 0.95`. -/
def c4Parsed : ParsedCorpus := ⟨[⟨[Segment.mk' (.error "x") 0 1], []⟩], []⟩

/-- C4 witness: the PSR gate at a concrete input. -/
theorem claim_C4_psr_gating_witness :
    hasOverflowExcs c4Parsed = false ∧
    c4Parsed.parse_success_ratio < mdlScorerDefaultMinPsr ∧
    ((mdlScore exOracles mdlScorerDefaultMinPsr emptyCorpus c4Parsed
        (.fixedHeader 4)).total_bits = FV.pinf ∧
     (mdlScore exOracles mdlScorerDefaultMinPsr emptyCorpus c4Parsed
        (.fixedHeader 4)).breakdown.parse_success_ratio = c4Parsed.parse_success_ratio) := by
  have hr : c4Parsed.parse_success_ratio < mdlScorerDefaultMinPsr := by
    norm_num [ParsedCorpus.parse_success_ratio, c4Parsed, mdlScorerDefaultMinPsr,
      ParsedPdu.is_success, SegmentKind.isError, Segment.mk']
  have h := claim_C4_psr_gating exOracles emptyCorpus c4Parsed (.fixedHeader 4)
    (by decide) hr
  exact ⟨by decide, hr, h.1, h.2.1⟩

end AIRE

namespace AIRE

/-- The entropy-drop formula exactly as claim C7 states it:
`max(0, 8·deflate(raw) − (encode(pci)+encode(fields)+encode(sdu)))`
with `encode(buf) = min(H(buf)·|buf|, 8·deflate(buf))` and
`encode([]) = 0` (deflate falling back to `H·len` on failure). -/
def entropyDropClaim (O : Oracles) (c : Corpus) (pc : ParsedCorpus) : ℚ :=
  let pci_data := concatSegData c pc SegmentKind.isPci
  let field_data := concatSegData c pc SegmentKind.isFieldKind
  let sdu_data := concatSegData c pc SegmentKind.isSdu
  let raw_data := c.items.flatMap PduRef.as_slice
  let enc := fun buf => if List.isEmpty buf then 0 else encBits O buf
  max 0 (dzBits O raw_data - (enc pci_data + enc field_data + enc sdu_data))

/-- The amended entropy-drop formula, following what the code computes:
each component is the plain `8·deflate` size (entropy does not enter
except as the deflate-failure fallback), empty components contribute 0,
and an empty raw concatenation gives 0. -/
def entropyDropAmended (O : Oracles) (c : Corpus) (pc : ParsedCorpus) : ℚ :=
  let pci_data := concatSegData c pc SegmentKind.isPci
  let field_data := concatSegData c pc SegmentKind.isFieldKind
  let sdu_data := concatSegData c pc SegmentKind.isSdu
  let raw_data := c.items.flatMap PduRef.as_slice
  if raw_data.isEmpty then 0
  else
    let pci_c := if pci_data.isEmpty then 0 else dzBits O pci_data
    let field_c := if field_data.isEmpty then 0 else dzBits O field_data
    let sdu_c := if sdu_data.isEmpty then 0 else dzBits O sdu_data
    max 0 (dzBits O raw_data - (pci_c + field_c + sdu_c))

/-- Rust `if m < r then max (r-m) 0 else 0` is `max 0 (r-m)`. -/
theorem ite_lt_max_eq (m r : ℚ) : (if m < r then max (r - m) 0 else 0) = max 0 (r - m) := by
  split_ifs with h
  · rw [max_comm]
  · symm
    apply max_eq_left
    linarith

/-- The code's entropy-drop block computes the amended formula. -/
theorem entropyDropCode_eq_amended (O : Oracles) (c : Corpus) (pc : ParsedCorpus) :
    entropyDropCode O c pc = entropyDropAmended O c pc := by
  simp only [entropyDropCode, entropyDropAmended]
  by_cases hre : (c.items.flatMap PduRef.as_slice).isEmpty <;>
    simp [hre, ite_lt_max_eq]

/-- C7 inputs: one PDU `[5,5,5,5]` split into PCI `[0,2)` and SDU
`[2,4)` — every buffer is a constant byte list, so its Shannon entropy
is exactly 0 and `exOracles.ent` is consistent with `measures::entropy`
on all buffers involved; any true deflate size of a non-empty buffer is
positive, as `exOracles.csize` is. -/
def c7Buf : Buf := ⟨0, [5, 5, 5, 5]⟩

def c7Pdu : PduRef := ⟨c7Buf, 0, 4⟩

def c7Corpus : Corpus := ⟨[c7Pdu], ⟨"t", 4, 1, none⟩⟩

def c7Parsed : ParsedCorpus := ⟨[⟨[Segment.mk' .pci 0 2, Segment.mk' .sdu 2 4], []⟩], []⟩

/-- C7 (counterexample): with zero-entropy constant buffers the claimed
formula takes `encode = min(0, 8·deflate) = 0` for PCI and SDU, giving
`max(0, 32 - 0) = 32`, while the code sums the deflate sizes themselves
(`16 + 16 = 32`) and yields `0` — the `entropy_drop_bits` computed by
`MdlScorer::score` does not equal the claimed formula. -/
theorem claim_C7_encode_min_mismatch :
    hasOverflowExcs c7Parsed = false ∧
    ¬ (c7Parsed.parse_success_ratio < mdlScorerDefaultMinPsr) ∧
    concatSegData c7Corpus c7Parsed SegmentKind.isPci = [5, 5] ∧
    concatSegData c7Corpus c7Parsed SegmentKind.isSdu = [5, 5] ∧
    concatSegData c7Corpus c7Parsed SegmentKind.isFieldKind = [] ∧
    (mdlScore exOracles mdlScorerDefaultMinPsr c7Corpus c7Parsed
      (.fixedHeader 2)).breakdown.entropy_drop_bits = FV.fin 0 ∧
    entropyDropClaim exOracles c7Corpus c7Parsed = 32 ∧
    (mdlScore exOracles mdlScorerDefaultMinPsr c7Corpus c7Parsed
      (.fixedHeader 2)).breakdown.entropy_drop_bits ≠
        FV.fin (entropyDropClaim exOracles c7Corpus c7Parsed) := by
  have hov : hasOverflowExcs c7Parsed = false := by decide
  have hpsr : ¬ (c7Parsed.parse_success_ratio < mdlScorerDefaultMinPsr) := by
    norm_num [ParsedCorpus.parse_success_ratio, c7Parsed, mdlScorerDefaultMinPsr,
      ParsedPdu.is_success, SegmentKind.isError, Segment.mk']
  have hpci : concatSegData c7Corpus c7Parsed SegmentKind.isPci = [5, 5] := by decide
  have hsdu : concatSegData c7Corpus c7Parsed SegmentKind.isSdu = [5, 5] := by decide
  have hfield : concatSegData c7Corpus c7Parsed SegmentKind.isFieldKind = [] := by decide
  have hraw : c7Corpus.items.flatMap PduRef.as_slice = [5, 5, 5, 5] := by decide
  have hdrop : entropyDropCode exOracles c7Corpus c7Parsed = 0 := by
    norm_num [entropyDropCode, hpci, hsdu, hfield, hraw, dzBits, exOracles]
  have hclaim : entropyDropClaim exOracles c7Corpus c7Parsed = 32 := by
    norm_num [entropyDropClaim, hpci, hsdu, hfield, hraw, dzBits, encBits, exOracles]
  have hscore : (mdlScore exOracles mdlScorerDefaultMinPsr c7Corpus c7Parsed
      (.fixedHeader 2)).breakdown.entropy_drop_bits = FV.fin 0 := by
    simp [mdlScore, hov, hpsr, Score.new, hdrop]
  refine ⟨hov, hpsr, hpci, hsdu, hfield, hscore, hclaim, ?_⟩
  rw [hscore, hclaim]
  decide

/-- C7 (amended): whenever the two hard screens pass, the
`entropy_drop_bits` field of `MdlScorer::score` equals
`max(0, 8·deflate(raw) − (dz(pci)+dz(fields)+dz(sdu)))` where `dz` is
the plain `8·deflate` size of a non-empty buffer (entropy·len only as
the deflate-failure fallback), `0` for an empty buffer, and the whole
drop is `0` when the raw concatenation is empty. -/
theorem claim_C7_amended_entropy_drop (O : Oracles) (c : Corpus) (pc : ParsedCorpus)
    (h : Hypothesis) (hov : hasOverflowExcs pc = false)
    (hpsr : ¬ (pc.parse_success_ratio < mdlScorerDefaultMinPsr)) :
    (mdlScore O mdlScorerDefaultMinPsr c pc h).breakdown.entropy_drop_bits =
      FV.fin (entropyDropAmended O c pc) := by
  simp [mdlScore, hov, hpsr, Score.new, entropyDropCode_eq_amended]

/-- C7 amended-claim witness at the C7 instance. -/
theorem claim_C7_amended_entropy_drop_witness :
    hasOverflowExcs c7Parsed = false ∧
    ¬ (c7Parsed.parse_success_ratio < mdlScorerDefaultMinPsr) ∧
    (mdlScore exOracles mdlScorerDefaultMinPsr c7Corpus c7Parsed
      (.fixedHeader 2)).breakdown.entropy_drop_bits =
        FV.fin (entropyDropAmended exOracles c7Corpus c7Parsed) := by
  have hov : hasOverflowExcs c7Parsed = false := by decide
  have hpsr : ¬ (c7Parsed.parse_success_ratio < mdlScorerDefaultMinPsr) := by
    norm_num [ParsedCorpus.parse_success_ratio, c7Parsed, mdlScorerDefaultMinPsr,
      ParsedPdu.is_success, SegmentKind.isError, Segment.mk']
  exact ⟨hov, hpsr,
    claim_C7_amended_entropy_drop exOracles c7Corpus c7Parsed (.fixedHeader 2) hov hpsr⟩

end AIRE

namespace AIRE

/-- C9 input: a single-PDU corpus whose PDU is the lone byte `0x80` — a
key varint whose continuation bit is set and which the PDU truncates. -/
def c9Buf : Buf := ⟨0, [128]⟩

def c9Pdu : PduRef := ⟨c9Buf, 0, 1⟩

def c9Corpus : Corpus := ⟨[c9Pdu], ⟨"t", 1, 1, none⟩⟩

/-- C9 (counterexample): the PDU `[0x80]` ends while the key varint is
incomplete (its last byte has the continuation bit set and only 1 < 5
key bytes were read), yet the Varint parser records NO exception — the
key loop simply stops at end-of-data, the truncated key becomes a
`Field("key")` segment, and the PDU finishes without any exception
string, refuting the claim that such a PDU yields at least one. -/
theorem claim_C9_incomplete_key_no_exception :
    Nat.testBit 128 7 = true ∧ (1 : Nat) < 5 ∧
    ((varintParseCorpus c9Corpus (.varintKeyWireType 5 false)).parsed_pdus.map
      ParsedPdu.exceptions) = [[]] ∧
    ¬ (∀ pp ∈ (varintParseCorpus c9Corpus (.varintKeyWireType 5 false)).parsed_pdus,
        1 ≤ pp.exceptions.length) := by
  decide

/-- Membership of an in-bounds indexed byte. -/
theorem byteAt_mem (data : List Nat) : ∀ i, i < data.length → byteAt data i ∈ data := by
  induction data with
  | nil => intro i h; simp at h
  | cons a t ih =>
    intro i h
    cases i with
    | zero => simp [byteAt]
    | succ j =>
      simp only [byteAt, List.getD_cons_succ]
      exact List.mem_cons_of_mem a (ih j (by simp only [List.length_cons] at h; omega))

/-- Unfolding one continuing iteration of the key-varint loop. -/
theorem readKeyAux_cont_step (data : List Nat) (n pos kb acc : Nat)
    (hp : pos < data.length) (hb : Nat.testBit (byteAt data pos) 7 = true) :
    readKeyAux data (n + 1) pos kb acc =
      readKeyAux data n (pos + 1) (kb + 1) (acc + byteAt data pos % 128 * 2 ^ (kb * 7)) := by
  simp [readKeyAux, hp, hb]

/-- When every byte of the data has its continuation bit set and the byte
budget covers the remaining data, the key loop stops exactly at the end of
the data, having read one key byte per consumed position. -/
theorem readKeyAux_all_cont_pos (data : List Nat)
    (hall : ∀ b ∈ data, Nat.testBit b 7 = true) :
    ∀ rem pos kb acc, pos ≤ data.length → data.length - pos ≤ rem →
      (readKeyAux data rem pos kb acc).2.1 = data.length ∧
      (readKeyAux data rem pos kb acc).1 = kb + (data.length - pos) := by
  intro rem
  induction rem with
  | zero =>
    intro pos kb acc h1 h2
    have hpe : pos = data.length := by omega
    subst hpe
    simp [readKeyAux]
  | succ n ih =>
    intro pos kb acc h1 h2
    by_cases hp : pos < data.length
    · rw [readKeyAux_cont_step data n pos kb acc hp (hall _ (byteAt_mem data pos hp))]
      obtain ⟨ha, hb⟩ := ih (pos + 1) (kb + 1)
        (acc + byteAt data pos % 128 * 2 ^ (kb * 7)) (by omega) (by omega)
      exact ⟨ha, by rw [hb]; omega⟩
    · have hpe : pos = data.length := by omega
      subst hpe
      simp [readKeyAux]

/-- Once at least one key byte has been read, later key bytes change the
accumulated key value only by multiples of `2^7`, so its low three bits
(the wire type) are already fixed. -/
theorem readKeyAux_acc_mod (data : List Nat) :
    ∀ rem pos kb acc, 1 ≤ kb → (readKeyAux data rem pos kb acc).2.2 % 8 = acc % 8 := by
  intro rem
  induction rem with
  | zero => intro pos kb acc _; rfl
  | succ n ih =>
    intro pos kb acc hkb
    have hmod : (acc + byteAt data pos % 128 * 2 ^ (kb * 7)) % 8 = acc % 8 := by
      have hpow : (2 : Nat) ^ (kb * 7) = 8 * 2 ^ (kb * 7 - 3) := by
        rw [show (8 : Nat) = 2 ^ 3 from rfl, ← pow_add]
        congr 1
        omega
      rw [hpow, show byteAt data pos % 128 * (8 * 2 ^ (kb * 7 - 3)) =
        8 * (byteAt data pos % 128 * 2 ^ (kb * 7 - 3)) by ring]
      exact Nat.add_mul_mod_self_left acc 8 _
    simp only [readKeyAux]
    split_ifs with h1 h2
    · rw [ih (pos + 1) (kb + 1) _ (by omega)]
      exact hmod
    · exact hmod
    · rfl

/-- The wire-type-0 value read consumes nothing at the end of the data. -/
theorem readVarintVal_at_end (data : List Nat) (rem pos : Nat)
    (h : data.length ≤ pos) : readVarintVal data rem pos = pos := by
  cases rem with
  | zero => rfl
  | succ n =>
    simp only [readVarintVal]
    rw [if_neg (by omega)]

/-- A parsing loop whose position is already at or past the end returns the
accumulated state. -/
theorem runLoop_at_end (len : Nat) (step : Nat → List Segment → List String → StepRes)
    (fuel pos : Nat) (segs : List Segment) (excs : List String) (h : len ≤ pos) :
    runLoop len step fuel pos segs excs = ⟨segs, excs⟩ := by
  cases fuel with
  | zero => rfl
  | succ n =>
    simp only [runLoop]
    rw [if_neg (by omega)]

/-- Unfolding one guarded iteration of the parsing loop. -/
theorem runLoop_succ_lt (len : Nat) (step : Nat → List Segment → List String → StepRes)
    (fuel pos : Nat) (segs : List Segment) (excs : List String) (h : pos < len) :
    runLoop len step (fuel + 1) pos segs excs =
      match step pos segs excs with
      | .done p => p
      | .cont pos' segs' excs' => runLoop len step fuel pos' segs' excs' := by
  simp only [runLoop]
  rw [if_pos h]

/-- C9 (amended): the Varint parser never reports an incomplete KEY as
such.  For any PDU made entirely of continuation bytes (so it ends while
the key varint is still incomplete, `data.length < key_max_bytes` bytes
read), the key loop stops silently at end-of-data, the truncated key is
emitted as a `Field("key")` segment, and the parser dispatches on the
truncated key's wire type (its low three bits, i.e. `data[0] % 8`): wire
type 0 consumes an empty varint value and the PDU finishes with NO
exception; wire types 1, 2 and 5 fail their value-step bounds checks and
append "Incomplete fixed64" / "Incomplete length" / "Incomplete fixed32"
respectively, preserving the emitted key segment; any other wire type
appends "Unknown wire type".  Insufficient bytes are thus reported only
at VALUE reading steps, never at the key step. -/
theorem claim_C9_amended_key_dispatch (kmb : Nat) (data : List Nat)
    (hne : data ≠ []) (hall : ∀ b ∈ data, Nat.testBit b 7 = true)
    (hlt : data.length < kmb) :
    (byteAt data 0 % 8 = 0 →
      varintParsePdu kmb data =
        ⟨[Segment.mk' (.field "key") 0 data.length,
          Segment.mk' (.field "value_varint") data.length data.length], []⟩) ∧
    (byteAt data 0 % 8 ≠ 0 →
      varintParsePdu kmb data =
        ⟨[Segment.mk' (.field "key") 0 data.length],
         [if byteAt data 0 % 8 = 1 then "Incomplete fixed64"
          else if byteAt data 0 % 8 = 2 then "Incomplete length"
          else if byteAt data 0 % 8 = 5 then "Incomplete fixed32"
          else s!"Unknown wire type: {byteAt data 0 % 8}"]⟩) := by
  obtain ⟨k, rfl⟩ : ∃ k, kmb = k + 1 := ⟨kmb - 1, by omega⟩
  have hlen : 1 ≤ data.length := by
    cases data with
    | nil => exact absurd rfl hne
    | cons a t => simp
  have h0 : (0 : Nat) < data.length := hlen
  have hb0 : Nat.testBit (byteAt data 0) 7 = true := hall _ (byteAt_mem data 0 h0)
  have hkey1 := readKeyAux_cont_step data k 0 0 0 h0 hb0
  obtain ⟨hpos, hkb⟩ := readKeyAux_all_cont_pos data hall k (0 + 1) (0 + 1)
    (0 + byteAt data 0 % 128 * 2 ^ (0 * 7)) (by omega) (by omega)
  have hacc : (readKeyAux data k (0 + 1) (0 + 1)
      (0 + byteAt data 0 % 128 * 2 ^ (0 * 7))).2.2 % 8 = byteAt data 0 % 8 := by
    rw [readKeyAux_acc_mod data k (0 + 1) (0 + 1) _ (by omega)]
    simp only [Nat.zero_mul, pow_zero, mul_one, Nat.zero_add]
    exact Nat.mod_mod_of_dvd _ ⟨16, rfl⟩
  have hnl : ¬((readKeyAux data (k + 1) 0 0 0).1 ≥ k + 1 ∧
      (readKeyAux data (k + 1) 0 0 0).2.1 < data.length ∧
      Nat.testBit (byteAt data ((readKeyAux data (k + 1) 0 0 0).2.1 - 1)) 7 = true) := by
    rw [hkey1, hpos]
    exact fun hcon => lt_irrefl _ hcon.2.1
  have hcall : varintStep (k + 1) data 0 [] [] =
      (if byteAt data 0 % 8 = 0 then
        StepRes.cont data.length
          [Segment.mk' (.field "key") 0 data.length,
           Segment.mk' (.field "value_varint") data.length data.length] []
      else
        StepRes.done ⟨[Segment.mk' (.field "key") 0 data.length],
          [if byteAt data 0 % 8 = 1 then "Incomplete fixed64"
           else if byteAt data 0 % 8 = 2 then "Incomplete length"
           else if byteAt data 0 % 8 = 5 then "Incomplete fixed32"
           else s!"Unknown wire type: {byteAt data 0 % 8}"]⟩) := by
    simp only [varintStep]
    rw [if_neg hnl, hkey1, hpos, hacc,
      readVarintVal_at_end data 10 data.length (le_refl _)]
    simp only [List.nil_append, List.singleton_append]
    split_ifs <;> first | rfl | omega
  constructor
  · intro hw
    unfold varintParsePdu
    rw [runLoop_succ_lt data.length (varintStep (k + 1) data) data.length 0 [] [] h0, hcall,
      if_pos hw]
    exact runLoop_at_end _ _ _ _ _ _ (le_refl _)
  · intro hw
    unfold varintParsePdu
    rw [runLoop_succ_lt data.length (varintStep (k + 1) data) data.length 0 [] [] h0, hcall,
      if_neg hw]

/-- C9 amended-claim witness at `key_max_bytes = 5`: the truncated keys
`[0x80]` (wire type 0, no exception) and `[0x81]` (wire type 1,
"Incomplete fixed64"). -/
theorem claim_C9_amended_key_dispatch_witness :
    ([128] : List Nat) ≠ [] ∧ (∀ b ∈ ([128] : List Nat), Nat.testBit b 7 = true) ∧
    ([128] : List Nat).length < 5 ∧
    varintParsePdu 5 [128] =
      ⟨[Segment.mk' (.field "key") 0 1, Segment.mk' (.field "value_varint") 1 1], []⟩ ∧
    varintParsePdu 5 [129] =
      ⟨[Segment.mk' (.field "key") 0 1], ["Incomplete fixed64"]⟩ := by
  refine ⟨by decide, by decide, by decide, ?_, ?_⟩
  · exact (claim_C9_amended_key_dispatch 5 [128] (by decide) (by decide) (by decide)).1
      (by decide)
  · have h := (claim_C9_amended_key_dispatch 5 [129] (by decide) (by decide) (by decide)).2
      (by decide)
    rw [h]
    decide



end AIRE

namespace AIRE

/-! ## Range containment (C8) and loop termination (C10) -/

/-- A segment's range lies within a PDU of length `n`:
`0 ≤ start ≤ end ≤ n`. -/
def segWithin (n : Nat) (s : Segment) : Prop := s.first ≤ s.last ∧ s.last ≤ n

/-- Rust `width.val ≥ 1`. -/
theorem LengthWidth.val_pos (w : LengthWidth) : 1 ≤ w.val := by
  cases w <;> decide

@[simp] theorem segWithin_mk' (n : Nat) (k : SegmentKind) (a b : Nat) :
    segWithin n (Segment.mk' k a b) ↔ a ≤ b ∧ b ≤ n := Iff.rfl

/-- Appending one in-range segment preserves containment. -/
theorem forall_append_seg {n : Nat} {l : List Segment} {a : Segment} :
    (∀ x ∈ l ++ [a], segWithin n x) ↔ (∀ x ∈ l, segWithin n x) ∧ segWithin n a := by
  constructor
  · intro h
    exact ⟨fun x hx => h x (List.mem_append.mpr (Or.inl hx)),
      h a (List.mem_append.mpr (Or.inr (List.mem_singleton.mpr rfl)))⟩
  · rintro ⟨hl, ha⟩ x hx
    rcases List.mem_append.mp hx with hx | hx
    · exact hl x hx
    · rw [List.mem_singleton] at hx
      subst hx
      exact ha

/-- Conditionally appending one in-range segment preserves containment. -/
theorem forall_ite_append {n : Nat} {l : List Segment} {a : Segment} {c : Prop} [Decidable c]
    (hl : ∀ x ∈ l, segWithin n x) (ha : c → segWithin n a) :
    ∀ x ∈ (if c then l ++ [a] else l), segWithin n x := by
  split_ifs with hc
  · exact forall_append_seg.mpr ⟨hl, ha hc⟩
  · exact hl

/-- Soundness of one `LengthPrefixParser` iteration: segments stay in
range, and a continuing step strictly advances. -/
theorem lpStep_sound (offset : Nat) (width : LengthWidth) (endian : Endianness)
    (data : List Nat) (pos : Nat) (segs : List Segment) (excs : List String)
    (hp : pos < data.length) (hP : ∀ x ∈ segs, segWithin data.length x) :
    (∀ p, lpStep offset width endian data pos segs excs = .done p →
      ∀ x ∈ p.segments, segWithin data.length x) ∧
    (∀ pos' segs' excs', lpStep offset width endian data pos segs excs = .cont pos' segs' excs' →
      (∀ x ∈ segs', segWithin data.length x) ∧ pos < pos') := by
  have hw := LengthWidth.val_pos width
  constructor
  · intro p hs
    simp only [lpStep] at hs
    by_cases h1 : pos + offset + width.val > data.length
    · rw [if_pos h1] at hs
      cases hs
      exact forall_append_seg.mpr ⟨hP, by simp; omega⟩
    · rw [if_neg h1] at hs
      by_cases h2 : pos + offset + width.val + readLenAt data (pos + offset) width endian >
          data.length
      · rw [if_pos h2] at hs
        cases hs
        exact forall_append_seg.mpr ⟨hP, by simp; omega⟩
      · rw [if_neg h2] at hs
        cases hs
  · intro pos' segs' excs' hs
    simp only [lpStep] at hs
    by_cases h1 : pos + offset + width.val > data.length
    · rw [if_pos h1] at hs
      cases hs
    · rw [if_neg h1] at hs
      by_cases h2 : pos + offset + width.val + readLenAt data (pos + offset) width endian >
          data.length
      · rw [if_pos h2] at hs
        cases hs
      · rw [if_neg h2] at hs
        cases hs
        refine ⟨?_, by omega⟩
        refine forall_ite_append (forall_ite_append (forall_ite_append hP ?_) ?_) ?_ <;>
          intro hc <;> simp <;> omega

end AIRE

namespace AIRE

/-- Every segment of a `LengthPrefixParser` result lies within the PDU. -/
theorem lpParsePdu_contained (offset : Nat) (width : LengthWidth) (endian : Endianness)
    (data : List Nat) :
    ∀ x ∈ (lpParsePdu offset width endian data).segments, segWithin data.length x := by
  unfold lpParsePdu
  refine runLoop_inv _ _ (fun segs _ => ∀ x ∈ segs, segWithin data.length x) ?_ ?_ _ _ _ _
    (by simp)
  · intro pos segs excs p hp hPP hs
    exact (lpStep_sound offset width endian data pos segs excs hp hPP).1 p hs
  · intro pos segs excs pos' segs' excs' hp hPP hs
    exact ((lpStep_sound offset width endian data pos segs excs hp hPP).2 pos' segs' excs' hs).1

/-- Any hit of the pattern search lies between the start position and
the end of the search range. -/
theorem findPatAux_some (data pattern : List Nat) :
    ∀ rem i j, findPatAux data pattern rem i = some j →
      i ≤ j ∧ j < i + rem ∧ pattern.isPrefixOf (data.drop j) = true := by
  intro rem
  induction rem with
  | zero => intro i j h; simp [findPatAux] at h
  | succ n ih =>
    intro i j h
    simp only [findPatAux] at h
    split_ifs at h with hpre
    · cases h
      exact ⟨le_refl _, by omega, hpre⟩
    · obtain ⟨h1, h2, h3⟩ := ih (i + 1) j h
      exact ⟨by omega, by omega, h3⟩

/-- A successful `findPat` yields a non-empty pattern and an in-bounds
match at or after the start position. -/
theorem findPat_some (data pattern : List Nat) (start j : Nat)
    (h : findPat data pattern start = some j) :
    start ≤ j ∧ 1 ≤ pattern.length ∧ j + pattern.length ≤ data.length := by
  simp only [findPat] at h
  by_cases hz : pattern.length = 0
  · rw [if_pos hz, Nat.zero_sub] at h
    simp [findPatAux] at h
  · rw [if_neg hz] at h
    obtain ⟨h1, h2, h3⟩ := findPatAux_some data pattern _ _ _ h
    have hpre : pattern <+: data.drop j := by
      exact List.isPrefixOf_iff_prefix.mp h3
    have hlen := hpre.length_le
    rw [List.length_drop] at hlen
    refine ⟨h1, by omega, by omega⟩

/-- Soundness of one `DelimiterParser` iteration. -/
theorem delimStep_sound (pattern data : List Nat) (pos : Nat) (segs : List Segment)
    (excs : List String) (hp : pos < data.length)
    (hP : ∀ x ∈ segs, segWithin data.length x) :
    (∀ p, delimStep pattern data pos segs excs = .done p →
      ∀ x ∈ p.segments, segWithin data.length x) ∧
    (∀ pos' segs' excs', delimStep pattern data pos segs excs = .cont pos' segs' excs' →
      (∀ x ∈ segs', segWithin data.length x) ∧ pos < pos') := by
  constructor
  · intro p hs
    simp only [delimStep] at hs
    rcases hf : findPat data pattern pos with _ | i <;> simp only [hf] at hs <;> cases hs
  · intro pos' segs' excs' hs
    simp only [delimStep] at hs
    rcases hf : findPat data pattern pos with _ | i
    · simp only [hf, Option.getD_none] at hs
      cases hs
      refine ⟨forall_ite_append hP ?_, hp⟩
      intro _
      simp
      omega
    · obtain ⟨h1, h2, h3⟩ := findPat_some data pattern pos i hf
      simp only [hf, Option.getD_some] at hs
      cases hs
      refine ⟨?_, by omega⟩
      refine forall_append_seg.mpr ⟨forall_ite_append hP ?_, ?_⟩ <;> simp <;> omega

/-- Every segment of a `DelimiterParser` result lies within the PDU. -/
theorem delimParsePdu_contained (pattern data : List Nat) :
    ∀ x ∈ (delimParsePdu pattern data).segments, segWithin data.length x := by
  unfold delimParsePdu
  refine runLoop_inv _ _ (fun segs _ => ∀ x ∈ segs, segWithin data.length x) ?_ ?_ _ _ _ _
    (by simp)
  · intro pos segs excs p hp hPP hs
    exact (delimStep_sound pattern data pos segs excs hp hPP).1 p hs
  · intro pos segs excs pos' segs' excs' hp hPP hs
    exact ((delimStep_sound pattern data pos segs excs hp hPP).2 pos' segs' excs' hs).1

/-- Every segment of a `FixedHeaderParser` result lies within the PDU. -/
theorem fhParsePdu_contained (len : Nat) (data : List Nat) :
    ∀ x ∈ (fhParsePdu len data).segments, segWithin data.length x := by
  unfold fhParsePdu
  by_cases h : data.length < len
  · rw [if_pos h]
    intro x hx
    rw [List.mem_singleton] at hx
    subst hx
    simp
  · rw [if_neg h]
    refine forall_ite_append ?_ ?_
    · intro x hx
      rw [List.mem_singleton] at hx
      subst hx
      simp
      omega
    · intro _
      simp
      omega

/-- Every segment of an `ExtensibleBitmapParser` result lies within the
PDU. -/
theorem ebParsePdu_contained (start cbit sval mbytes : Nat) (data : List Nat) :
    ∀ x ∈ (ebParsePdu start cbit sval mbytes data).segments, segWithin data.length x := by
  unfold ebParsePdu
  by_cases h1 : data.length < start
  · rw [if_pos h1]
    intro x hx
    rw [List.mem_singleton] at hx
    subst hx
    simp
  · rw [if_neg h1]
    by_cases h2 : start + bitmapScan data cbit sval mbytes start 0 > data.length
    · rw [if_pos h2]
      intro x hx
      rw [List.mem_singleton] at hx
      subst hx
      simp
    · rw [if_neg h2]
      refine forall_ite_append (forall_append_seg.mpr ⟨?_, ?_⟩) ?_
      · split_ifs with h3
        · intro x hx
          rw [List.mem_singleton] at hx
          subst hx
          simp
          omega
        · intro x hx
          simp at hx
      · simp
        omega
      · intro _
        simp
        omega

end AIRE

namespace AIRE

/-- An EOC hit lies at or after the search start and strictly before
the last byte. -/
theorem findEocAux_some (data : List Nat) :
    ∀ rem s e, findEocAux data rem s = some e → s ≤ e ∧ e + 1 < data.length := by
  intro rem
  induction rem with
  | zero => intro s e h; simp [findEocAux] at h
  | succ n ih =>
    intro s e h
    simp only [findEocAux] at h
    split_ifs at h with hb hz
    · cases h
      exact ⟨le_refl _, hb⟩
    · obtain ⟨h1, h2⟩ := ih (s + 1) e h
      exact ⟨by omega, h2⟩

/-- Rust `findEoc` bound. -/
theorem findEoc_some (data : List Nat) (start e : Nat) (h : findEoc data start = some e) :
    start ≤ e ∧ e + 1 < data.length :=
  findEocAux_some data _ start e h

/-- A definite length rule has a positive length-field size. -/
theorem TlvLenRule.fieldSize_pos (rule : TlvLenRule) (h : rule ≠ .indefiniteWithEoc) :
    1 ≤ rule.fieldSize := by
  cases rule <;> first | rfl | decide | exact absurd rfl h

/-- Soundness of the post-length tail of a TLV iteration: under the tag
and length-field bounds established by `tlvStep`, segments stay in range
and a continuing step strictly advances. -/
theorem tlvCont_sound (tagOff tagBytes lenOff : Nat) (rule : TlvLenRule) (incl : Bool)
    (data : List Nat) (pos : Nat) (segs : List Segment) (excs : List String) (len : Nat)
    (hp : pos < data.length) (hP : ∀ x ∈ segs, segWithin data.length x)
    (hls : pos + lenOff + rule.fieldSize ≤ data.length)
    (heoc : rule = .indefiniteWithEoc → ∃ e, findEoc data (pos + lenOff) = some e) :
    (∀ p, tlvCont tagOff tagBytes lenOff rule incl data pos segs excs len = .done p →
      ∀ x ∈ p.segments, segWithin data.length x) ∧
    (∀ pos' segs' excs',
      tlvCont tagOff tagBytes lenOff rule incl data pos segs excs len = .cont pos' segs' excs' →
      (∀ x ∈ segs', segWithin data.length x) ∧ pos < pos') := by
  have hseg1 : ∀ x ∈ (if pos + tagOff + tagBytes < pos + lenOff then
      segs ++ [Segment.mk' .pci (pos + tagOff + tagBytes) (pos + lenOff)] else segs),
      segWithin data.length x :=
    forall_ite_append hP (fun _ => by simp; omega)
  have hseg2 : ∀ x ∈ (if rule.fieldSize > 0 then
      (if pos + tagOff + tagBytes < pos + lenOff then
        segs ++ [Segment.mk' .pci (pos + tagOff + tagBytes) (pos + lenOff)] else segs) ++
        [Segment.mk' (.field "length") (pos + lenOff) (pos + lenOff + rule.fieldSize)]
      else (if pos + tagOff + tagBytes < pos + lenOff then
        segs ++ [Segment.mk' .pci (pos + tagOff + tagBytes) (pos + lenOff)] else segs)),
      segWithin data.length x :=
    forall_ite_append hseg1 (fun _ => by simp; omega)
  constructor
  · intro p hs
    simp only [tlvCont] at hs
    by_cases hc1 : len > data.length - (pos + lenOff + rule.fieldSize) + 1000
    · rw [if_pos hc1] at hs
      cases hs
      exact hseg2
    · rw [if_neg hc1] at hs
      by_cases hc2 : (incl = true) ∧ ¬(pos + tagOff ≤ pos + lenOff + rule.fieldSize ∧
          pos + lenOff + rule.fieldSize - (pos + tagOff) ≤ len)
      · rw [if_pos hc2] at hs
        cases hs
        exact hseg2
      · rw [if_neg hc2] at hs
        by_cases hc3 : pos + lenOff + rule.fieldSize +
            (if incl = true then len - (pos + lenOff + rule.fieldSize - (pos + tagOff))
              else len) > data.length
        · rw [if_pos hc3] at hs
          cases hs
          exact hseg2
        · rw [if_neg hc3] at hs
          by_cases hc4 : (if incl = true then
              len - (pos + lenOff + rule.fieldSize - (pos + tagOff)) else len) >
              data.length - (pos + lenOff + rule.fieldSize)
          · rw [if_pos hc4] at hs
            cases hs
            exact hseg2
          · rw [if_neg hc4] at hs
            by_cases hr : rule = .indefiniteWithEoc
            · rw [if_pos hr] at hs
              rcases heoc hr with ⟨e, he⟩
              rw [he] at hs
              cases hs
            · rw [if_neg hr] at hs
              by_cases hi : incl = true
              · rw [if_pos hi] at hs
                cases hs
              · rw [if_neg hi] at hs
                cases hs
  · intro pos' segs' excs' hs
    simp only [tlvCont] at hs
    by_cases hc1 : len > data.length - (pos + lenOff + rule.fieldSize) + 1000
    · rw [if_pos hc1] at hs
      cases hs
    · rw [if_neg hc1] at hs
      by_cases hc2 : (incl = true) ∧ ¬(pos + tagOff ≤ pos + lenOff + rule.fieldSize ∧
          pos + lenOff + rule.fieldSize - (pos + tagOff) ≤ len)
      · rw [if_pos hc2] at hs
        cases hs
      · rw [if_neg hc2] at hs
        by_cases hc3 : pos + lenOff + rule.fieldSize +
            (if incl = true then len - (pos + lenOff + rule.fieldSize - (pos + tagOff))
              else len) > data.length
        · rw [if_pos hc3] at hs
          cases hs
        · rw [if_neg hc3] at hs
          by_cases hc4 : (if incl = true then
              len - (pos + lenOff + rule.fieldSize - (pos + tagOff)) else len) >
              data.length - (pos + lenOff + rule.fieldSize)
          · rw [if_pos hc4] at hs
            cases hs
          · rw [if_neg hc4] at hs
            have hseg3 : ∀ x ∈ (if (if incl = true then
                len - (pos + lenOff + rule.fieldSize - (pos + tagOff)) else len) > 0 then
                (if rule.fieldSize > 0 then
                  (if pos + tagOff + tagBytes < pos + lenOff then
                    segs ++ [Segment.mk' .pci (pos + tagOff + tagBytes) (pos + lenOff)]
                    else segs) ++
                    [Segment.mk' (.field "length") (pos + lenOff)
                      (pos + lenOff + rule.fieldSize)]
                  else (if pos + tagOff + tagBytes < pos + lenOff then
                    segs ++ [Segment.mk' .pci (pos + tagOff + tagBytes) (pos + lenOff)]
                    else segs)) ++
                  [Segment.mk' .sdu (pos + lenOff + rule.fieldSize)
                    (pos + lenOff + rule.fieldSize +
                      (if incl = true then
                        len - (pos + lenOff + rule.fieldSize - (pos + tagOff)) else len))]
                else (if rule.fieldSize > 0 then
                  (if pos + tagOff + tagBytes < pos + lenOff then
                    segs ++ [Segment.mk' .pci (pos + tagOff + tagBytes) (pos + lenOff)]
                    else segs) ++
                    [Segment.mk' (.field "length") (pos + lenOff)
                      (pos + lenOff + rule.fieldSize)]
                  else (if pos + tagOff + tagBytes < pos + lenOff then
                    segs ++ [Segment.mk' .pci (pos + tagOff + tagBytes) (pos + lenOff)]
                    else segs))), segWithin data.length x :=
              forall_ite_append hseg2 (fun _ => by simp; omega)
            by_cases hr : rule = .indefiniteWithEoc
            · rw [if_pos hr] at hs
              rcases heoc hr with ⟨e, he⟩
              obtain ⟨he1, he2⟩ := findEoc_some data _ _ he
              rw [he] at hs
              cases hs
              exact ⟨hseg3, by omega⟩
            · rw [if_neg hr] at hs
              have hfs := TlvLenRule.fieldSize_pos rule hr
              by_cases hi : incl = true
              · rw [if_pos hi] at hs
                cases hs
                have hab : pos + tagOff ≤ pos + lenOff + rule.fieldSize ∧
                    pos + lenOff + rule.fieldSize - (pos + tagOff) ≤ len := by
                  by_contra hq
                  exact hc2 ⟨hi, hq⟩
                exact ⟨hseg3, by omega⟩
              · rw [if_neg hi] at hs
                cases hs
                exact ⟨hseg3, by omega⟩

end AIRE

namespace AIRE

/-- Soundness of one full `TlvParser` iteration. -/
theorem tlvStep_sound (tagOff tagBytes lenOff : Nat) (rule : TlvLenRule) (incl : Bool)
    (data : List Nat) (pos : Nat) (segs : List Segment) (excs : List String)
    (hp : pos < data.length) (hP : ∀ x ∈ segs, segWithin data.length x) :
    (∀ p, tlvStep tagOff tagBytes lenOff rule incl data pos segs excs = .done p →
      ∀ x ∈ p.segments, segWithin data.length x) ∧
    (∀ pos' segs' excs',
      tlvStep tagOff tagBytes lenOff rule incl data pos segs excs = .cont pos' segs' excs' →
      (∀ x ∈ segs', segWithin data.length x) ∧ pos < pos') := by
  by_cases h1 : pos + tagOff + tagBytes > data.length
  · constructor
    · intro p hs
      simp only [tlvStep] at hs
      rw [if_pos h1] at hs
      cases hs
      exact forall_append_seg.mpr ⟨hP, by simp; omega⟩
    · intro pos' segs' excs' hs
      simp only [tlvStep] at hs
      rw [if_pos h1] at hs
      cases hs
  · have hseg2 : ∀ x ∈ (if tagOff > 0 ∧ pos < pos + tagOff then
        segs ++ [Segment.mk' .pci pos (pos + tagOff)] else segs) ++
        [Segment.mk' (.field "tag") (pos + tagOff) (pos + tagOff + tagBytes)],
        segWithin data.length x :=
      forall_append_seg.mpr ⟨forall_ite_append hP (fun _ => by simp; omega), by simp; omega⟩
    cases rule with
    | definiteShort =>
      constructor
      · intro p hs
        simp only [tlvStep] at hs
        rw [if_neg h1] at hs
        by_cases h2 : pos + lenOff ≥ data.length
        · rw [if_pos h2] at hs
          cases hs
          exact hseg2
        · rw [if_neg h2] at hs
          exact (tlvCont_sound tagOff tagBytes lenOff _ incl data pos _ _ _ hp hseg2
            (by simp [TlvLenRule.fieldSize]; omega) (fun h => absurd h (by decide))).1 p hs
      · intro pos' segs' excs' hs
        simp only [tlvStep] at hs
        rw [if_neg h1] at hs
        by_cases h2 : pos + lenOff ≥ data.length
        · rw [if_pos h2] at hs
          cases hs
        · rw [if_neg h2] at hs
          exact (tlvCont_sound tagOff tagBytes lenOff _ incl data pos _ _ _ hp hseg2
            (by simp [TlvLenRule.fieldSize]; omega) (fun h => absurd h (by decide))).2 _ _ _ hs
    | definiteMedium =>
      constructor
      · intro p hs
        simp only [tlvStep] at hs
        rw [if_neg h1] at hs
        by_cases h2 : pos + lenOff + 2 > data.length
        · rw [if_pos h2] at hs
          cases hs
          exact hseg2
        · rw [if_neg h2] at hs
          exact (tlvCont_sound tagOff tagBytes lenOff _ incl data pos _ _ _ hp hseg2
            (by simp [TlvLenRule.fieldSize]; omega) (fun h => absurd h (by decide))).1 p hs
      · intro pos' segs' excs' hs
        simp only [tlvStep] at hs
        rw [if_neg h1] at hs
        by_cases h2 : pos + lenOff + 2 > data.length
        · rw [if_pos h2] at hs
          cases hs
        · rw [if_neg h2] at hs
          exact (tlvCont_sound tagOff tagBytes lenOff _ incl data pos _ _ _ hp hseg2
            (by simp [TlvLenRule.fieldSize]; omega) (fun h => absurd h (by decide))).2 _ _ _ hs
    | definiteLong =>
      constructor
      · intro p hs
        simp only [tlvStep] at hs
        rw [if_neg h1] at hs
        by_cases h2 : pos + lenOff + 4 > data.length
        · rw [if_pos h2] at hs
          cases hs
          exact hseg2
        · rw [if_neg h2] at hs
          exact (tlvCont_sound tagOff tagBytes lenOff _ incl data pos _ _ _ hp hseg2
            (by simp [TlvLenRule.fieldSize]; omega) (fun h => absurd h (by decide))).1 p hs
      · intro pos' segs' excs' hs
        simp only [tlvStep] at hs
        rw [if_neg h1] at hs
        by_cases h2 : pos + lenOff + 4 > data.length
        · rw [if_pos h2] at hs
          cases hs
        · rw [if_neg h2] at hs
          exact (tlvCont_sound tagOff tagBytes lenOff _ incl data pos _ _ _ hp hseg2
            (by simp [TlvLenRule.fieldSize]; omega) (fun h => absurd h (by decide))).2 _ _ _ hs
    | indefiniteWithEoc =>
      constructor
      · intro p hs
        simp only [tlvStep] at hs
        rw [if_neg h1] at hs
        rcases hfe : findEoc data (pos + lenOff) with _ | e
        · rw [hfe] at hs
          cases hs
          exact hseg2
        · obtain ⟨he1, he2⟩ := findEoc_some data _ _ hfe
          rw [hfe] at hs
          exact (tlvCont_sound tagOff tagBytes lenOff _ incl data pos _ _ _ hp hseg2
            (by simp [TlvLenRule.fieldSize]; omega) (fun _ => ⟨e, hfe⟩)).1 p hs
      · intro pos' segs' excs' hs
        simp only [tlvStep] at hs
        rw [if_neg h1] at hs
        rcases hfe : findEoc data (pos + lenOff) with _ | e
        · rw [hfe] at hs
          cases hs
        · obtain ⟨he1, he2⟩ := findEoc_some data _ _ hfe
          rw [hfe] at hs
          exact (tlvCont_sound tagOff tagBytes lenOff _ incl data pos _ _ _ hp hseg2
            (by simp [TlvLenRule.fieldSize]; omega) (fun _ => ⟨e, hfe⟩)).2 _ _ _ hs

/-- Every segment of a `TlvParser` result lies within the PDU. -/
theorem tlvParsePdu_contained (tagOff tagBytes lenOff : Nat) (rule : TlvLenRule)
    (incl : Bool) (data : List Nat) :
    ∀ x ∈ (tlvParsePdu tagOff tagBytes lenOff rule incl data).segments,
      segWithin data.length x := by
  unfold tlvParsePdu
  refine runLoop_inv _ _ (fun segs _ => ∀ x ∈ segs, segWithin data.length x) ?_ ?_ _ _ _ _
    (by simp)
  · intro pos segs excs p hp hPP hs
    exact (tlvStep_sound tagOff tagBytes lenOff rule incl data pos segs excs hp hPP).1 p hs
  · intro pos segs excs pos' segs' excs' hp hPP hs
    exact ((tlvStep_sound tagOff tagBytes lenOff rule incl data pos segs excs hp hPP).2
      pos' segs' excs' hs).1

end AIRE

namespace AIRE

/-- The key read never moves backwards. -/
theorem readKeyAux_le (data : List Nat) :
    ∀ rem pos kb acc, pos ≤ (readKeyAux data rem pos kb acc).2.1 := by
  intro rem
  induction rem with
  | zero => intro pos kb acc; simp [readKeyAux]
  | succ n ih =>
    intro pos kb acc
    simp only [readKeyAux]
    split_ifs with h1 h2
    · exact le_trans (by omega) (ih (pos + 1) (kb + 1) _)
    · simp
    · simp

/-- The key read never moves past the end of the data. -/
theorem readKeyAux_le_len (data : List Nat) :
    ∀ rem pos kb acc, pos ≤ data.length → (readKeyAux data rem pos kb acc).2.1 ≤ data.length := by
  intro rem
  induction rem with
  | zero => intro pos kb acc h; simpa [readKeyAux] using h
  | succ n ih =>
    intro pos kb acc h
    simp only [readKeyAux]
    split_ifs with h1 h2
    · exact ih (pos + 1) (kb + 1) _ (by omega)
    · simpa using h1
    · simpa using h

/-- With a positive byte budget and data remaining, the key read
strictly advances. -/
theorem readKeyAux_lt (data : List Nat) :
    ∀ rem pos kb acc, 1 ≤ rem → pos < data.length → pos < (readKeyAux data rem pos kb acc).2.1 := by
  intro rem
  induction rem with
  | zero => intro pos kb acc h; omega
  | succ n ih =>
    intro pos kb acc _ hp
    simp only [readKeyAux]
    rw [if_pos hp]
    split_ifs with h2
    · exact lt_of_lt_of_le (by omega) (readKeyAux_le data n (pos + 1) (kb + 1) _)
    · simp

/-- The wire-type-0 value read never moves backwards. -/
theorem readVarintVal_le (data : List Nat) :
    ∀ rem pos, pos ≤ readVarintVal data rem pos := by
  intro rem
  induction rem with
  | zero => intro pos; simp [readVarintVal]
  | succ n ih =>
    intro pos
    simp only [readVarintVal]
    split_ifs with h1 h2
    · exact le_trans (by omega) (ih (pos + 1))
    · omega
    · omega

/-- The wire-type-0 value read never moves past the end of the data. -/
theorem readVarintVal_le_len (data : List Nat) :
    ∀ rem pos, pos ≤ data.length → readVarintVal data rem pos ≤ data.length := by
  intro rem
  induction rem with
  | zero => intro pos h; simpa [readVarintVal] using h
  | succ n ih =>
    intro pos h
    simp only [readVarintVal]
    split_ifs with h1 h2
    · exact ih (pos + 1) (by omega)
    · omega
    · omega

/-- With byte budget and data remaining, the wire-type-0 value read
strictly advances. -/
theorem readVarintVal_lt (data : List Nat) :
    ∀ rem pos, 1 ≤ rem → pos < data.length → pos < readVarintVal data rem pos := by
  intro rem
  induction rem with
  | zero => intro pos h; omega
  | succ n ih =>
    intro pos _ hp
    simp only [readVarintVal]
    rw [if_pos hp]
    split_ifs with h2
    · exact lt_of_lt_of_le (by omega) (readVarintVal_le data n (pos + 1))
    · omega

/-- Soundness of one `VarintParser` iteration. -/
theorem varintStep_sound (kmb : Nat) (data : List Nat) (pos : Nat) (segs : List Segment)
    (excs : List String) (hp : pos < data.length)
    (hP : ∀ x ∈ segs, segWithin data.length x) :
    (∀ p, varintStep kmb data pos segs excs = .done p →
      ∀ x ∈ p.segments, segWithin data.length x) ∧
    (∀ pos' segs' excs', varintStep kmb data pos segs excs = .cont pos' segs' excs' →
      (∀ x ∈ segs', segWithin data.length x) ∧ pos < pos') := by
  have hle : pos ≤ (readKeyAux data kmb pos 0 0).2.1 := readKeyAux_le data kmb pos 0 0
  have hlen : (readKeyAux data kmb pos 0 0).2.1 ≤ data.length :=
    readKeyAux_le_len data kmb pos 0 0 (le_of_lt hp)
  set R := readKeyAux data kmb pos 0 0 with hR
  have hseg1 : ∀ x ∈ segs ++ [Segment.mk' (.field "key") pos R.2.1],
      segWithin data.length x :=
    forall_append_seg.mpr ⟨hP, by simp; omega⟩
  have hvle : R.2.1 ≤ readVarintVal data 10 R.2.1 := readVarintVal_le data 10 R.2.1
  have hvlen : readVarintVal data 10 R.2.1 ≤ data.length :=
    readVarintVal_le_len data 10 R.2.1 hlen
  have hinc : pos < readVarintVal data 10 R.2.1 := by
    rcases Nat.lt_or_ge pos R.2.1 with h | h
    · omega
    · have := readVarintVal_lt data 10 R.2.1 (by omega) (by omega)
      omega
  constructor
  · intro p hs
    simp only [varintStep, ← hR] at hs
    by_cases h1 : R.1 ≥ kmb ∧ R.2.1 < data.length ∧
        Nat.testBit (byteAt data (R.2.1 - 1)) 7 = true
    · rw [if_pos h1] at hs
      cases hs
      exact hP
    · rw [if_neg h1] at hs
      by_cases h2 : R.2.2 % 8 = 0
      · rw [if_pos h2] at hs
        cases hs
      · rw [if_neg h2] at hs
        by_cases h3 : R.2.2 % 8 = 1
        · rw [if_pos h3] at hs
          by_cases h4 : R.2.1 + 8 > data.length
          · rw [if_pos h4] at hs
            cases hs
            exact hseg1
          · rw [if_neg h4] at hs
            cases hs
        · rw [if_neg h3] at hs
          by_cases h5 : R.2.2 % 8 = 2
          · rw [if_pos h5] at hs
            by_cases h6 : R.2.1 ≥ data.length
            · rw [if_pos h6] at hs
              cases hs
              exact hseg1
            · rw [if_neg h6] at hs
              by_cases h7 : R.2.1 + 1 + byteAt data R.2.1 > data.length
              · rw [if_pos h7] at hs
                cases hs
                exact hseg1
              · rw [if_neg h7] at hs
                cases hs
          · rw [if_neg h5] at hs
            by_cases h8 : R.2.2 % 8 = 5
            · rw [if_pos h8] at hs
              by_cases h9 : R.2.1 + 4 > data.length
              · rw [if_pos h9] at hs
                cases hs
                exact hseg1
              · rw [if_neg h9] at hs
                cases hs
            · rw [if_neg h8] at hs
              cases hs
              exact hseg1
  · intro pos' segs' excs' hs
    simp only [varintStep, ← hR] at hs
    by_cases h1 : R.1 ≥ kmb ∧ R.2.1 < data.length ∧
        Nat.testBit (byteAt data (R.2.1 - 1)) 7 = true
    · rw [if_pos h1] at hs
      cases hs
    · rw [if_neg h1] at hs
      by_cases h2 : R.2.2 % 8 = 0
      · rw [if_pos h2] at hs
        cases hs
        refine ⟨forall_append_seg.mpr ⟨hseg1, by simp; omega⟩, hinc⟩
      · rw [if_neg h2] at hs
        by_cases h3 : R.2.2 % 8 = 1
        · rw [if_pos h3] at hs
          by_cases h4 : R.2.1 + 8 > data.length
          · rw [if_pos h4] at hs
            cases hs
          · rw [if_neg h4] at hs
            cases hs
            refine ⟨forall_append_seg.mpr ⟨hseg1, by simp; omega⟩, by omega⟩
        · rw [if_neg h3] at hs
          by_cases h5 : R.2.2 % 8 = 2
          · rw [if_pos h5] at hs
            by_cases h6 : R.2.1 ≥ data.length
            · rw [if_pos h6] at hs
              cases hs
            · rw [if_neg h6] at hs
              by_cases h7 : R.2.1 + 1 + byteAt data R.2.1 > data.length
              · rw [if_pos h7] at hs
                cases hs
              · rw [if_neg h7] at hs
                cases hs
                refine ⟨?_, by omega⟩
                intro x hx
                rcases List.mem_append.mp hx with hx | hx
                · exact hseg1 x hx
                · simp only [List.mem_cons, List.mem_singleton, List.not_mem_nil,
                    or_false] at hx
                  rcases hx with rfl | rfl
                  · simp
                    omega
                  · simp
                    omega
          · rw [if_neg h5] at hs
            by_cases h8 : R.2.2 % 8 = 5
            · rw [if_pos h8] at hs
              by_cases h9 : R.2.1 + 4 > data.length
              · rw [if_pos h9] at hs
                cases hs
              · rw [if_neg h9] at hs
                cases hs
                refine ⟨forall_append_seg.mpr ⟨hseg1, by simp; omega⟩, by omega⟩
            · rw [if_neg h8] at hs
              cases hs

/-- Every segment of a `VarintParser` result lies within the PDU. -/
theorem varintParsePdu_contained (kmb : Nat) (data : List Nat) :
    ∀ x ∈ (varintParsePdu kmb data).segments, segWithin data.length x := by
  unfold varintParsePdu
  refine runLoop_inv _ _ (fun segs _ => ∀ x ∈ segs, segWithin data.length x) ?_ ?_ _ _ _ _
    (by simp)
  · intro pos segs excs p hp hPP hs
    exact (varintStep_sound kmb data pos segs excs hp hPP).1 p hs
  · intro pos segs excs pos' segs' excs' hp hPP hs
    exact ((varintStep_sound kmb data pos segs excs hp hPP).2 pos' segs' excs' hs).1

end AIRE

namespace AIRE

/-- Zipping a list with its image pairs each element with its image. -/
theorem zip_self_map {α β : Type} (f : α → β) :
    ∀ l : List α, l.zip (l.map f) = l.map (fun a => (a, f a)) := by
  intro l
  induction l with
  | nil => rfl
  | cons a t ih => simp [ih]

/-- Containment for a parser that maps a per-PDU function over the
corpus items. -/
theorem contained_of_map (c : Corpus) (g : List Nat → ParsedPdu)
    (hg : ∀ data, ∀ x ∈ (g data).segments, segWithin data.length x) :
    ∀ pr ∈ c.items.zip (c.items.map (fun p => g p.as_slice)),
      ∀ x ∈ pr.2.segments, segWithin pr.1.as_slice.length x := by
  intro pr hpr
  rw [zip_self_map] at hpr
  rcases List.mem_map.mp hpr with ⟨p, hp, rfl⟩
  exact hg p.as_slice

/-- Fuel irrelevance of `runLoop` threading a state invariant: when
every invariant-respecting continuing step strictly advances, any two
fuels dominating `len - pos` give the same result. -/
theorem runLoop_fuel_inv (len : Nat) (step : Nat → List Segment → List String → StepRes)
    (P : List Segment → List String → Prop)
    (hcont : ∀ pos segs excs pos' segs' excs', pos < len → P segs excs →
      step pos segs excs = .cont pos' segs' excs' → P segs' excs' ∧ pos < pos') :
    ∀ f₁ f₂ pos segs excs, P segs excs → len - pos < f₁ → len - pos < f₂ →
      runLoop len step f₁ pos segs excs = runLoop len step f₂ pos segs excs := by
  intro f₁
  induction f₁ with
  | zero => intro f₂ pos segs excs hP h₁; omega
  | succ n ih =>
    intro f₂ pos segs excs hP h₁ h₂
    match f₂ with
    | 0 => omega
    | m + 1 =>
      by_cases hp : pos < len
      · rcases hs : step pos segs excs with p | ⟨pos', segs', excs'⟩
        · simp [runLoop, hp, hs]
        · obtain ⟨hP', hlt⟩ := hcont pos segs excs pos' segs' excs' hp hP hs
          simp only [runLoop, hp, if_true, hs]
          exact ih m pos' segs' excs' hP' (by omega) (by omega)
      · simp [runLoop, hp]

/-- C8: for every corpus and hypothesis, every `Segment` emitted into a
`ParsedPdu` by any of the six built-in parsers satisfies
`0 ≤ start ≤ end ≤ len(pdu)` for the PDU it was produced from. -/
theorem claim_C8_range_containment (c : Corpus) (h : Hypothesis) :
    (∀ pr ∈ c.items.zip (lpParseCorpus c h).parsed_pdus,
      ∀ x ∈ pr.2.segments, segWithin pr.1.as_slice.length x) ∧
    (∀ pr ∈ c.items.zip (delimParseCorpus c h).parsed_pdus,
      ∀ x ∈ pr.2.segments, segWithin pr.1.as_slice.length x) ∧
    (∀ pr ∈ c.items.zip (fhParseCorpus c h).parsed_pdus,
      ∀ x ∈ pr.2.segments, segWithin pr.1.as_slice.length x) ∧
    (∀ pr ∈ c.items.zip (ebParseCorpus c h).parsed_pdus,
      ∀ x ∈ pr.2.segments, segWithin pr.1.as_slice.length x) ∧
    (∀ pr ∈ c.items.zip (tlvParseCorpus c h).parsed_pdus,
      ∀ x ∈ pr.2.segments, segWithin pr.1.as_slice.length x) ∧
    (∀ pr ∈ c.items.zip (varintParseCorpus c h).parsed_pdus,
      ∀ x ∈ pr.2.segments, segWithin pr.1.as_slice.length x) := by
  refine ⟨?_, ?_, ?_, ?_, ?_, ?_⟩ <;> cases h <;>
    first
      | exact contained_of_map c _ (fun data => lpParsePdu_contained _ _ _ data)
      | exact contained_of_map c _ (fun data => delimParsePdu_contained _ data)
      | exact contained_of_map c _ (fun data => fhParsePdu_contained _ data)
      | exact contained_of_map c _ (fun data => ebParsePdu_contained _ _ _ _ data)
      | exact contained_of_map c _ (fun data => tlvParsePdu_contained _ _ _ _ _ data)
      | exact contained_of_map c _ (fun data => varintParsePdu_contained _ data)
      | (intro pr hpr
         simp only [lpParseCorpus, delimParseCorpus, fhParseCorpus, ebParseCorpus,
           tlvParseCorpus, varintParseCorpus, ParsedCorpus.mk', List.zip_nil_right,
           List.not_mem_nil] at hpr)

/-- C8 witness inputs: the length-prefix seed PDU `[0A 00 | 10 zeros]`. -/
def c8Pdu : PduRef := ⟨⟨0, [10, 0, 0, 0, 0, 0, 0, 0, 0, 0, 0, 0]⟩, 0, 12⟩

def c8Corpus : Corpus := ⟨[c8Pdu], ⟨"t", 12, 1, none⟩⟩

def c8Hyp : Hypothesis := .lengthPrefixBundle 0 .two .little false

def c8ParsedPdu : ParsedPdu :=
  ⟨[Segment.mk' (.field "length") 0 2, Segment.mk' .sdu 2 12], []⟩

def c8Seg : Segment := Segment.mk' .sdu 2 12

/-- C8 witness: the SDU segment of the length-prefix parse of the seed
PDU lies inside the PDU. -/
theorem claim_C8_range_containment_witness :
    ((c8Pdu, c8ParsedPdu) ∈ c8Corpus.items.zip (lpParseCorpus c8Corpus c8Hyp).parsed_pdus) ∧
    (c8Seg ∈ c8ParsedPdu.segments) ∧ segWithin c8Pdu.as_slice.length c8Seg :=
  ⟨by decide, by decide,
    (claim_C8_range_containment c8Corpus c8Hyp).1 (c8Pdu, c8ParsedPdu) (by decide)
      c8Seg (by decide)⟩

/-- The bitmap scan consumes at most its remaining byte budget. -/
theorem bitmapScan_le (data : List Nat) (cbit sval : Nat) :
    ∀ rem bpos blen, bitmapScan data cbit sval rem bpos blen ≤ blen + rem := by
  intro rem
  induction rem with
  | zero => intro bpos blen; simp [bitmapScan]
  | succ n ih =>
    intro bpos blen
    simp only [bitmapScan]
    split_ifs with h1 h2
    · omega
    · exact le_trans (ih (bpos + 1) (blen + 1)) (by omega)
    · omega

/-- C10: every built-in parser's per-PDU loop terminates.  For the four
looping parsers the loop body either breaks or strictly increases `pos`,
so running the loop with any fuel beyond `data.len + 1` changes nothing
(the fuelled model has exhausted the loop); `FixedHeaderParser` is
loop-free and `ExtensibleBitmapParser`'s scan is bounded by its
`max_bytes` byte budget. -/
theorem claim_C10_parser_termination (data : List Nat) (extra : Nat) :
    (∀ offset width endian,
      runLoop data.length (lpStep offset width endian data) (data.length + 1 + extra) 0 [] [] =
        lpParsePdu offset width endian data) ∧
    (∀ pattern,
      runLoop data.length (delimStep pattern data) (data.length + 1 + extra) 0 [] [] =
        delimParsePdu pattern data) ∧
    (∀ tagOff tagBytes lenOff rule incl,
      runLoop data.length (tlvStep tagOff tagBytes lenOff rule incl data)
        (data.length + 1 + extra) 0 [] [] =
        tlvParsePdu tagOff tagBytes lenOff rule incl data) ∧
    (∀ kmb,
      runLoop data.length (varintStep kmb data) (data.length + 1 + extra) 0 [] [] =
        varintParsePdu kmb data) ∧
    (∀ cbit sval rem bpos blen, bitmapScan data cbit sval rem bpos blen ≤ blen + rem) := by
  refine ⟨?_, ?_, ?_, ?_, fun cbit sval => bitmapScan_le data cbit sval⟩
  · intro offset width endian
    exact runLoop_fuel_inv data.length _ (fun segs _ => ∀ x ∈ segs, segWithin data.length x)
      (fun pos segs excs pos' segs' excs' hp hP hs =>
        (lpStep_sound offset width endian data pos segs excs hp hP).2 pos' segs' excs' hs)
      _ _ 0 [] [] (by simp) (by omega) (by omega)
  · intro pattern
    exact runLoop_fuel_inv data.length _ (fun segs _ => ∀ x ∈ segs, segWithin data.length x)
      (fun pos segs excs pos' segs' excs' hp hP hs =>
        (delimStep_sound pattern data pos segs excs hp hP).2 pos' segs' excs' hs)
      _ _ 0 [] [] (by simp) (by omega) (by omega)
  · intro tagOff tagBytes lenOff rule incl
    exact runLoop_fuel_inv data.length _ (fun segs _ => ∀ x ∈ segs, segWithin data.length x)
      (fun pos segs excs pos' segs' excs' hp hP hs =>
        (tlvStep_sound tagOff tagBytes lenOff rule incl data pos segs excs hp hP).2
          pos' segs' excs' hs)
      _ _ 0 [] [] (by simp) (by omega) (by omega)
  · intro kmb
    exact runLoop_fuel_inv data.length _ (fun segs _ => ∀ x ∈ segs, segWithin data.length x)
      (fun pos segs excs pos' segs' excs' hp hP hs =>
        (varintStep_sound kmb data pos segs excs hp hP).2 pos' segs' excs' hs)
      _ _ 0 [] [] (by simp) (by omega) (by omega)

end AIRE

namespace AIRE

/-- Stable insertion only adds the inserted element. -/
theorem insertSorted_mem (x y : Hypothesis × Score × ParsedCorpus) :
    ∀ l, x ∈ insertSorted y l → x = y ∨ x ∈ l := by
  intro l
  induction l with
  | nil => intro h; simp [insertSorted] at h; exact Or.inl h
  | cons a t ih =>
    intro h
    simp only [insertSorted] at h
    split_ifs at h with hc
    · rcases List.mem_cons.mp h with h' | h'
      · exact Or.inr (h' ▸ List.mem_cons_self _ _)
      · rcases ih h' with h'' | h''
        · exact Or.inl h''
        · exact Or.inr (List.mem_cons_of_mem _ h'')
    · rcases List.mem_cons.mp h with h' | h'
      · exact Or.inl h'
      · exact Or.inr h'

/-- The stable sort is a sublist permutation: members come from the
input. -/
theorem sortScored_mem (x : Hypothesis × Score × ParsedCorpus) :
    ∀ l, x ∈ sortScored l → x ∈ l := by
  intro l
  induction l with
  | nil => intro h; simp [sortScored] at h
  | cons a t ih =>
    intro h
    simp only [sortScored] at h
    rcases insertSorted_mem x a _ h with h' | h'
    · exact h' ▸ List.mem_cons_self _ _
    · exact List.mem_cons_of_mem _ (ih h')

/-- Rust `raw - best ≥ ε` follows from the failed `<` check when the raw
total is finite and the best total is not NaN. -/
theorem FV.le_of_not_lt (q e : ℚ) (b : FV) (hb : b ≠ FV.nan)
    (h : FV.lt ((FV.fin q).sub b) (FV.fin e) = false) :
    FV.le (FV.fin e) ((FV.fin q).sub b) = true := by
  cases b with
  | fin x =>
    simp only [FV.sub, FV.add, FV.neg, FV.lt, FV.le, decide_eq_false_iff_not,
      decide_eq_true_eq] at *
    linarith
  | pinf => simp [FV.sub, FV.add, FV.neg, FV.lt] at h
  | ninf => simp [FV.sub, FV.add, FV.neg, FV.le]
  | nan => exact absurd rfl hb

/-- The raw baseline's total is always finite. -/
theorem rawScore_total_fin (csize : List Nat → Option Nat) (c : Corpus) :
    ∃ q : ℚ, (rawScore csize c).total_bits = FV.fin q :=
  ⟨_, rfl⟩

/-- Every layer adopted by the inference loop passed the gain check
against the raw score of its depth's corpus. -/
theorem inferAux_gain (E : InferenceEngine) (reg : PluginRegistry)
    (csize : List Nat → Option Nat)
    (hsc : ∀ sc ∈ reg.scorers, ∀ c' pc h, (sc.score c' pc h).total_bits ≠ FV.nan) :
    ∀ fuel c, ∀ pr ∈ inferAux E reg csize fuel c,
      FV.le (FV.fin E.min_gain_epsilon)
        ((rawScore csize pr.1).total_bits.sub pr.2.score.total_bits) = true := by
  intro fuel
  induction fuel with
  | zero => intro c pr h; simp [inferAux] at h
  | succ d ih =>
    intro c pr hpr
    simp only [inferAux] at hpr
    split_ifs at hpr with h1 h2 h3 h4
    · exact absurd hpr (List.not_mem_nil pr)
    · exact absurd hpr (List.not_mem_nil pr)
    · exact absurd hpr (List.not_mem_nil pr)
    · exact absurd hpr (List.not_mem_nil pr)
    · split at hpr
      · exact absurd hpr (List.not_mem_nil pr)
      · next bh bs bp ttail htop =>
        by_cases h5 : FV.lt ((rawScore csize c).total_bits.sub bs.total_bits)
            (FV.fin E.min_gain_epsilon) = true
        · rw [if_pos h5] at hpr
          exact absurd hpr (List.not_mem_nil pr)
        · rw [if_neg h5] at hpr
          rcases List.mem_cons.mp hpr with rfl | hpr
          · have hmemtake : (bh, bs, bp) ∈ (sortScored
                ((reg.generators.flatMap fun g => g.propose c).filterMap fun h =>
                  match reg.parsers.find? fun p => p.applicable h with
                  | none => none
                  | some p =>
                    match reg.scorers.head? with
                    | none => none
                    | some sc => some (h, sc.score c (p.parse_corpus c h) h,
                        p.parse_corpus c h))).take E.top_k := by
              rw [htop]
              exact List.mem_cons_self _ _
            have hmemsort := List.take_subset _ _ hmemtake
            have hmemscored := sortScored_mem _ _ hmemsort
            rcases List.mem_filterMap.mp hmemscored with ⟨a, _, hf⟩
            have hbnan : bs.total_bits ≠ FV.nan := by
              rcases hfind : reg.parsers.find? (fun p => p.applicable a) with _ | p <;>
                rw [hfind] at hf
              · cases hf
              · rcases hhead : reg.scorers.head? with _ | sc0 <;> rw [hhead] at hf
                · cases hf
                · have hmem0 : sc0 ∈ reg.scorers := by
                    cases hS : reg.scorers with
                    | nil => rw [hS] at hhead; cases hhead
                    | cons s0 rest =>
                      rw [hS] at hhead
                      simp only [List.head?, Option.some.injEq] at hhead
                      rw [← hhead]
                      exact List.mem_cons_self _ _
                  cases hf
                  exact hsc sc0 hmem0 _ _ _
            obtain ⟨q, hq⟩ := rawScore_total_fin csize c
            show FV.le (FV.fin E.min_gain_epsilon)
              ((rawScore csize c).total_bits.sub bs.total_bits) = true
            rw [hq]
            rw [hq] at h5
            exact FV.le_of_not_lt q E.min_gain_epsilon bs.total_bits hbnan
              (Bool.eq_false_iff.mpr h5)
          · rcases hsdu : extractSduCorpus E c bp with _ | sc <;> rw [hsdu] at hpr
            · exact absurd hpr (List.not_mem_nil pr)
            · exact ih sc pr hpr

/-- The MDL scorer's total is never NaN: the two rejection branches yield
`+∞` totals and the main branch yields a finite total. -/
theorem mdlScore_total_not_nan (O : Oracles) (minPsr : ℚ) (c : Corpus)
    (pc : ParsedCorpus) (h : Hypothesis) :
    (mdlScore O minPsr c pc h).total_bits ≠ FV.nan := by
  unfold mdlScore
  split_ifs <;>
    simp [Score.new, ScoreBreakdown.total_bits, FV.add, FV.sub, FV.neg]
  split_ifs <;> simp

/-- C5 (amended): for every engine, corpus, compressed-size oracle and
registry whose registered scorers never return a NaN total — a condition
the built-in MDL scorer meets unconditionally (third conjunct) — `infer`
emits exactly the layers of the depth trace, and every adopted Layer
satisfies `raw_score.total_bits - best_score.total_bits ≥
min_gain_epsilon` where `raw_score` is the do-nothing baseline of the
corpus of that depth.  The no-NaN condition is necessary: the
counterexample below exhibits a scorer plugin with a NaN total on which
the invariant fails. -/
theorem claim_C5_monotonic_gain (E : InferenceEngine) (reg : PluginRegistry)
    (csize : List Nat → Option Nat) (corpus : Corpus)
    (hsc : ∀ sc ∈ reg.scorers, ∀ c' pc h, (sc.score c' pc h).total_bits ≠ FV.nan) :
    ((infer E reg csize corpus).layers =
      (inferAux E reg csize E.max_depth corpus).map Prod.snd ∧
    ∀ fuel, ∀ pr ∈ inferAux E reg csize fuel corpus,
      FV.le (FV.fin E.min_gain_epsilon)
        ((rawScore csize pr.1).total_bits.sub pr.2.score.total_bits) = true) ∧
    ∀ O minPsr c' pc h', (mdlScore O minPsr c' pc h').total_bits ≠ FV.nan :=
  ⟨⟨rfl, fun fuel => inferAux_gain E reg csize hsc fuel corpus⟩,
    fun O minPsr c' pc h' => mdlScore_total_not_nan O minPsr c' pc h'⟩

end AIRE

namespace AIRE

/-- C5 witness registry: one generator proposing one hypothesis, one
always-applicable parser emitting an empty parse per PDU, one scorer
returning a constant all-zero (finite) score. -/
def w5Scorer : ScorerP :=
  ⟨"s", fun _ _ _ => Score.new ⟨FV.fin 0, FV.fin 0, 1, FV.fin 0, FV.fin 0, FV.fin 0⟩⟩

def w5Reg : PluginRegistry :=
  ⟨[⟨"g", fun _ => [.fixedHeader 1]⟩],
   [⟨"p", fun _ => true, fun c _ => ParsedCorpus.mk' (c.items.map (fun _ => ⟨[], []⟩))⟩],
   [w5Scorer]⟩

def w5Csize (l : List Nat) : Option Nat := some l.length

def w5Corpus : Corpus := ⟨[⟨⟨0, List.replicate 13 0⟩, 0, 13⟩], ⟨"t", 13, 1, none⟩⟩

def w5Parsed : ParsedCorpus := ⟨[⟨[], []⟩], []⟩

def w5Score : Score := Score.new ⟨FV.fin 0, FV.fin 0, 1, FV.fin 0, FV.fin 0, FV.fin 0⟩

def w5Layer : Layer :=
  ⟨.fixedHeader 1, w5Score, w5Parsed, none, [⟨.fixedHeader 1, w5Score, w5Parsed⟩]⟩

/-- C5 witness: a one-layer run (raw total `13·8 = 104` bits, adopted
total `0`, gain `104 ≥ 100`). -/
theorem claim_C5_monotonic_gain_witness :
    (∀ sc ∈ w5Reg.scorers, ∀ c' pc h, (sc.score c' pc h).total_bits ≠ FV.nan) ∧
    ((w5Corpus, w5Layer) ∈ inferAux InferenceEngine.new w5Reg w5Csize 6 w5Corpus) ∧
    FV.le (FV.fin InferenceEngine.new.min_gain_epsilon)
      ((rawScore w5Csize w5Corpus).total_bits.sub w5Layer.score.total_bits) = true := by
  have hsc : ∀ sc ∈ w5Reg.scorers, ∀ c' pc h, (sc.score c' pc h).total_bits ≠ FV.nan := by
    intro sc hmem c' pc h
    simp only [w5Reg, List.mem_singleton] at hmem
    subst hmem
    change (Score.new ⟨FV.fin 0, FV.fin 0, 1, FV.fin 0, FV.fin 0, FV.fin 0⟩).total_bits ≠ FV.nan
    with_unfolding_all decide
  have hmem : (w5Corpus, w5Layer) ∈ inferAux InferenceEngine.new w5Reg w5Csize 6 w5Corpus := by
    with_unfolding_all decide
  exact ⟨hsc, hmem,
    (claim_C5_monotonic_gain InferenceEngine.new w5Reg w5Csize w5Corpus hsc).1.2 6
      (w5Corpus, w5Layer) hmem⟩

end AIRE

namespace AIRE

/-- C5 counterexample scorer: a plugin whose score, built with
`Score::new` from a breakdown holding `+∞` model bits and `+∞` entropy
drop, has `total_bits = ∞ - ∞ = NaN`. -/
def x5Score : Score := Score.new ⟨FV.pinf, FV.fin 0, 1, FV.fin 0, FV.pinf, FV.fin 0⟩

def x5Scorer : ScorerP := ⟨"s", fun _ _ _ => x5Score⟩

/-- C5 counterexample registry: one generator proposing one hypothesis,
one always-applicable parser emitting an empty parse per PDU, and the
NaN-total scorer. -/
def x5Reg : PluginRegistry :=
  ⟨[⟨"g", fun _ => [.fixedHeader 1]⟩],
   [⟨"p", fun _ => true, fun c _ => ParsedCorpus.mk' (c.items.map (fun _ => ⟨[], []⟩))⟩],
   [x5Scorer]⟩

def x5Layer : Layer :=
  ⟨.fixedHeader 1, x5Score, w5Parsed, none, [⟨.fixedHeader 1, x5Score, w5Parsed⟩]⟩

/-- C5 (counterexample to the original claim): with the NaN-total scorer
plugin registered, the gain at the adopted layer is `raw - NaN = NaN`,
the adoption test `gain < ε` is false (IEEE comparisons with NaN are
false) so `infer` emits the layer, and the claimed invariant
`raw - best ≥ ε` fails for it. -/
theorem claim_C5_nan_gain_counterexample :
    x5Layer.score.total_bits = FV.nan ∧
    (infer InferenceEngine.new x5Reg w5Csize w5Corpus).layers = [x5Layer] ∧
    (w5Corpus, x5Layer) ∈
      inferAux InferenceEngine.new x5Reg w5Csize InferenceEngine.new.max_depth w5Corpus ∧
    FV.le (FV.fin InferenceEngine.new.min_gain_epsilon)
      ((rawScore w5Csize w5Corpus).total_bits.sub x5Layer.score.total_bits) = false := by
  refine ⟨?_, ?_, ?_, ?_⟩ <;> with_unfolding_all decide

end AIRE
